import Mathlib

/-!
Verification of the `tsp_ga_ma` optimization engine.

The Python sources are shallowly embedded: the cost table is a function
`d : Nat → Nat → Nat` together with its size `n` (entries are non-negative
integers, so `Nat`), tours are `List Nat`, Python's in-place list updates
become functional updates, the global `random` generator becomes an explicit
state `σ` threaded through abstract operations `RngOps`, wall-clock time
becomes an explicit input, and operations that can raise return `Option`.
`float("inf")` is modelled by `(⊤ : WithTop Nat)`.
-/

namespace TspGaMa

/-- `tour_length` from `utils.py`: cost of the Hamiltonian cycle
`tour[0] → tour[1] → ⋯ → tour[n-1] → tour[0]`. -/
def tour_length (tour : List Nat) (d : Nat → Nat → Nat) : Nat :=
  ((List.range tour.length).map
    (fun i => d (tour.getD i 0) (tour.getD ((i + 1) % tour.length) 0))).sum

/-- `crossover_one_point` from `ga.py`: one-point crossover with repair. -/
def crossover_one_point (parent1 parent2 : List Nat) (point : Nat) :
    List Nat × List Nat :=
  let child1_first := parent1.take point
  let child1 := child1_first ++ parent2.filter (fun g => decide (g ∉ child1_first))
  let child2_first := parent2.take point
  let child2 := child2_first ++ parent1.filter (fun g => decide (g ∉ child2_first))
  (child1, child2)

/-- `mutate_swap` from `ga.py`: exchange the entries at positions `i` and `j`
(the two positions are drawn by `random.sample(range(n), 2)` at the call
site; here they are explicit arguments). -/
def mutate_swap (tour : List Nat) (i j : Nat) : List Nat :=
  (tour.set i (tour.getD j 0)).set j (tour.getD i 0)

/-- The body of the `for shift in range(1, group_size)` loop of
`local_search_rotate_groups`: try one cyclic shift of the current group,
evaluating the full tour (`candidate`) globally, and keep it only on strict
improvement. -/
def rotate_inner_step (d : Nat → Nat → Nat) (bt : List Nat)
    (start group_size : Nat) (group : List Nat) (acc2 : List Nat × Nat)
    (shift : Nat) : List Nat × Nat :=
  let rotated := group.drop shift ++ group.take shift
  let candidate := bt.take start ++ rotated ++ bt.drop (start + group_size)
  let cost := tour_length candidate d
  if cost < acc2.2 then (rotated, cost) else acc2

/-- The body of the `for g in range(groups)` loop of
`local_search_rotate_groups`: commit the best-or-equal rotation found for
group `g` before moving on. -/
def rotate_outer_step (d : Nat → Nat → Nat) (group_size : Nat)
    (acc : List Nat × Nat) (g : Nat) : List Nat × Nat :=
  let start := g * group_size
  let group := (acc.1.drop start).take group_size
  let inner := (List.range' 1 (group_size - 1)).foldl
    (rotate_inner_step d acc.1 start group_size group) (group, acc.2)
  (acc.1.take start ++ inner.1 ++ acc.1.drop (start + group_size), inner.2)

/-- `local_search_rotate_groups` from `local_search.py`.  Python raises
`ZeroDivisionError` on `groups = 0` (`n % groups`); that failure is modelled
by `none`. -/
def local_search_rotate_groups (tour : List Nat) (d : Nat → Nat → Nat)
    (groups : Nat) : Option (List Nat) :=
  if groups = 0 then none
  else if tour.length % groups ≠ 0 then some tour
  else some (((List.range groups).foldl
    (rotate_outer_step d (tour.length / groups))
    (tour, tour_length tour d)).1)

/-- The recursive `while True` loop of `local_search_rotate_groups_iterative`
(`local_search.py`).  The Python loop re-enters exactly when the pass
strictly reduced the cost, which also bounds the recursion. -/
def ls_rotate_iter_go (d : Nat → Nat → Nat) (groups : Nat)
    (current : List Nat) : Option (List Nat) :=
  match local_search_rotate_groups current d groups with
  | none => none
  | some new =>
    if h2 : tour_length new d < tour_length current d then
      ls_rotate_iter_go d groups new
    else some current
termination_by tour_length current d
decreasing_by exact h2

/-- `local_search_rotate_groups_iterative` from `local_search.py`. -/
def local_search_rotate_groups_iterative (tour : List Nat)
    (d : Nat → Nat → Nat) (groups : Nat) : Option (List Nat) :=
  ls_rotate_iter_go d groups tour

/-- The body of the `for groups in group_sizes` loop of
`local_search_rotate_groups_dynamic` (`local_search.py`): one group count is
tried, and the tour / `improved_in_cycle` flag are updated on improvement. -/
def ls_dyn_step (d : Nat → Nat → Nat) (acc : Option (List Nat × Bool))
    (groups : Nat) : Option (List Nat × Bool) :=
  match acc with
  | none => none
  | some (current, improved) =>
    match local_search_rotate_groups current d groups with
    | none => none
    | some new =>
      if tour_length new d < tour_length current d then some (new, true)
      else some (current, improved)

/-- One full pass of the dynamic-rotation loop over all configured group
counts, starting with `improved_in_cycle = false`. -/
def ls_rotate_dyn_pass (d : Nat → Nat → Nat) (group_sizes : List Nat)
    (start : List Nat) : Option (List Nat × Bool) :=
  group_sizes.foldl (ls_dyn_step d) (some (start, false))

theorem ls_dyn_fold_none (d : Nat → Nat → Nat) (gs : List Nat) :
    gs.foldl (ls_dyn_step d) none = none := by
  induction gs with
  | nil => rfl
  | cons g gs ih => simpa [ls_dyn_step] using ih

theorem ls_dyn_fold_cost (d : Nat → Nat → Nat) (gs : List Nat) :
    ∀ (t0 : List Nat) (b0 : Bool) (t' : List Nat) (b : Bool),
      gs.foldl (ls_dyn_step d) (some (t0, b0)) = some (t', b) →
      tour_length t' d ≤ tour_length t0 d ∧
        (b = true → b0 = true ∨ tour_length t' d < tour_length t0 d) := by
  induction gs with
  | nil =>
    intro t0 b0 t' b h
    simp only [List.foldl_nil, Option.some.injEq, Prod.mk.injEq] at h
    obtain ⟨h1, h2⟩ := h
    subst h1; subst h2
    exact ⟨le_rfl, fun hb => Or.inl hb⟩
  | cons g gs ih =>
    intro t0 b0 t' b h
    rw [List.foldl_cons] at h
    by_cases hr : ∃ new, local_search_rotate_groups t0 d g = some new
    · obtain ⟨new, hnew⟩ := hr
      by_cases hlt : tour_length new d < tour_length t0 d
      · rw [show ls_dyn_step d (some (t0, b0)) g = some (new, true) by
          simp [ls_dyn_step, hnew, hlt]] at h
        obtain ⟨h1, h2⟩ := ih new true t' b h
        exact ⟨le_trans h1 (le_of_lt hlt), fun _ => Or.inr (lt_of_le_of_lt h1 hlt)⟩
      · rw [show ls_dyn_step d (some (t0, b0)) g = some (t0, b0) by
          simp [ls_dyn_step, hnew, hlt]] at h
        exact ih t0 b0 t' b h
    · rw [show ls_dyn_step d (some (t0, b0)) g = none by
        push_neg at hr
        rcases hcase : local_search_rotate_groups t0 d g with _ | new
        · simp [ls_dyn_step, hcase]
        · exact absurd hcase (hr new)] at h
      rw [ls_dyn_fold_none] at h
      exact absurd h (by simp)

/-- If a dynamic-rotation pass reports an improvement then the cost strictly
dropped; in any case it never rises. -/
theorem ls_rotate_dyn_pass_cost (d : Nat → Nat → Nat) (gs : List Nat)
    (t t' : List Nat) (b : Bool) (h : ls_rotate_dyn_pass d gs t = some (t', b)) :
    tour_length t' d ≤ tour_length t d ∧
      (b = true → tour_length t' d < tour_length t d) := by
  obtain ⟨h1, h2⟩ := ls_dyn_fold_cost d gs t false t' b h
  refine ⟨h1, fun hb => ?_⟩
  rcases h2 hb with hcontra | hlt
  · exact absurd hcontra (by simp)
  · exact hlt

/-- The recursive `while True` loop of `local_search_rotate_groups_dynamic`. -/
def ls_rotate_dyn_go (d : Nat → Nat → Nat) (group_sizes : List Nat)
    (current : List Nat) : Option (List Nat) :=
  match h : ls_rotate_dyn_pass d group_sizes current with
  | none => none
  | some (t, improved) =>
    if h2 : improved = true then
      ls_rotate_dyn_go d group_sizes t
    else some t
termination_by tour_length current d
decreasing_by exact (ls_rotate_dyn_pass_cost d group_sizes current t improved h).2 h2

/-- `local_search_rotate_groups_dynamic` from `local_search.py`. -/
def local_search_rotate_groups_dynamic (tour : List Nat)
    (d : Nat → Nat → Nat) (group_sizes : List Nat) : Option (List Nat) :=
  ls_rotate_dyn_go d group_sizes tour

/-- One pass of the `while improved` loop of `local_search_2opt`
(`local_search.py`): scan all edge pairs `(i, i+1)`, `(j, j+1)` in order,
applying every improving reversal to the current tour (first improvement,
continuing the scan on the modified tour), and report whether any move was
applied.  `delta < 0` over the integers is `d u x + d v y < d u v + d x y`
over `Nat`. -/
def two_opt_inner_step (d : Nat → Nat → Nat) (n i : Nat)
    (acc2 : List Nat × Bool) (j : Nat) : List Nat × Bool :=
  if i = 0 ∧ j = n - 1 then acc2
  else
    let t := acc2.1
    let u := t.getD i 0
    let v := t.getD (i + 1) 0
    let x := t.getD j 0
    let y := t.getD ((j + 1) % n) 0
    if d u x + d v y < d u v + d x y then
      (t.take (i + 1) ++ ((t.drop (i + 1)).take (j - i)).reverse ++ t.drop (j + 1),
        true)
    else acc2

def two_opt_outer_step (d : Nat → Nat → Nat) (n : Nat)
    (acc : List Nat × Bool) (i : Nat) : List Nat × Bool :=
  (List.range' (i + 2) (n - (i + 2))).foldl (two_opt_inner_step d n i) acc

def two_opt_pass (d : Nat → Nat → Nat) (tour : List Nat) : List Nat × Bool :=
  (List.range (tour.length - 1)).foldl (two_opt_outer_step d tour.length)
    (tour, false)

/-- The `while improved` loop of `local_search_2opt`.  For a symmetric cost
table every applied move strictly decreases the true cycle cost (proved
below), so the Python loop re-enters only when the cost dropped; the guard
makes that measure explicit. -/
def two_opt_go (d : Nat → Nat → Nat) (tour : List Nat) : List Nat :=
  let p := two_opt_pass d tour
  if h : p.2 = true ∧ tour_length p.1 d < tour_length tour d then
    two_opt_go d p.1
  else p.1
termination_by tour_length tour d
decreasing_by exact h.2

/-- `local_search_2opt` from `local_search.py`. -/
def local_search_2opt (tour : List Nat) (d : Nat → Nat → Nat) : List Nat :=
  two_opt_go d tour

/-! ### The genetic and memetic engines (`ga.py`, `memetic.py`) -/

/-- The operations the engines draw from Python's seeded global `random`
generator, threaded as explicit state `σ`: `random.shuffle`,
`random.random`, and `random.sample(range n, 2)`. -/
structure RngOps (σ : Type) where
  shuffle : List Nat → σ → List Nat × σ
  rand : σ → ℚ × σ
  sample2 : Nat → σ → (Nat × Nat) × σ

/-- The loop-carried state of one GA/MA run. -/
structure GenState (σ : Type) where
  population : List (List Nat)
  best_tour : Option (List Nat)
  best_cost : WithTop Nat
  history : List (WithTop Nat)
  crossover_solutions : Nat
  mutation_solutions : Nat
  rng : σ
deriving DecidableEq

/-- `population.sort(key=fitness)`: a stable sort by tour cost (Python's
sort is stable, and a stable sort is determined by the key order, so
insertion sort models it exactly). -/
def sortPop (d : Nat → Nat → Nat) (pop : List (List Nat)) : List (List Nat) :=
  List.insertionSort (fun a b => tour_length a d ≤ tour_length b d) pop

/-- The body of the crossover loop: parent `i` is paired with parent
`(i+1) % len(parents)` and both children are appended, counting 2 crossover
solutions per pair. -/
def crossover_step (parents : List (List Nat)) (n : Nat)
    (acc : List (List Nat) × Nat) (i : Nat) : List (List Nat) × Nat :=
  let p1 := parents.getD i []
  let p2 := parents.getD ((i + 1) % parents.length) []
  let c := crossover_one_point p1 p2 (n / 2)
  (acc.1 ++ [c.1, c.2], acc.2 + 2)

/-- The crossover loop of `ga.py`/`memetic.py`:
`for i in range(0, len(parents), 2)`. -/
def crossover_block (parents : List (List Nat)) (n : Nat) (cs0 : Nat) :
    List (List Nat) × Nat :=
  (List.range' 0 ((parents.length + 1) / 2) 2).foldl
    (crossover_step parents n) ([], cs0)

/-- The mutation loop: each child consumes one `random.random()` draw, and a
triggered mutation consumes one `random.sample` draw and swaps two
positions. -/
def mutation_step {σ : Type} (ops : RngOps σ) (n : Nat) (mutation_rate : ℚ)
    (acc : List (List Nat) × Nat × σ) (child : List Nat) :
    List (List Nat) × Nat × σ :=
  let rg := ops.rand acc.2.2
  if rg.1 < mutation_rate then
    let sg := ops.sample2 n rg.2
    (acc.1 ++ [mutate_swap child sg.1.1 sg.1.2], acc.2.1 + 1, sg.2)
  else (acc.1 ++ [child], acc.2.1, rg.2)

def mutation_block {σ : Type} (ops : RngOps σ) (n : Nat) (mutation_rate : ℚ)
    (children : List (List Nat)) (ms0 : Nat) (g0 : σ) :
    List (List Nat) × Nat × σ :=
  children.foldl (mutation_step ops n mutation_rate) ([], ms0, g0)

/-- The local-search loop of `memetic.py` (generalized over the operator):
each child consumes one `random.random()` draw and is replaced by the
operator's output when the draw is below `local_search_prob`. -/
def ls_step {σ : Type} (ops : RngOps σ) (ls_prob : ℚ)
    (apply1 : List Nat → Option (List Nat))
    (acc : Option (List (List Nat) × σ)) (child : List Nat) :
    Option (List (List Nat) × σ) :=
  match acc with
  | none => none
  | some (l, g) =>
    let rg := ops.rand g
    if rg.1 < ls_prob then
      match apply1 child with
      | none => none
      | some c' => some (l ++ [c'], rg.2)
    else some (l ++ [child], rg.2)

def ls_block {σ : Type} (ops : RngOps σ) (ls_prob : ℚ)
    (apply1 : List Nat → Option (List Nat)) (children : List (List Nat))
    (g0 : σ) : Option (List (List Nat) × σ) :=
  children.foldl (ls_step ops ls_prob apply1) (some ([], g0))

/-- One generation of `genetic_tsp` (`ga.py` lines 99–132): sort, record
the best, select the best half, crossover, mutation, replacement.  Indexing
an empty population (`population[0]`) raises in Python and is `none` here. -/
def gaStep {σ : Type} (ops : RngOps σ) (d : Nat → Nat → Nat)
    (n population_size : Nat) (mutation_rate : ℚ) (s : GenState σ) :
    Option (GenState σ) :=
  match sortPop d s.population with
  | [] => none
  | current_best :: rest =>
    let sorted := current_best :: rest
    let current_cost := tour_length current_best d
    let new_best_tour : Option (List Nat) :=
      if (current_cost : WithTop Nat) < s.best_cost then some current_best
      else s.best_tour
    let new_best_cost : WithTop Nat :=
      if (current_cost : WithTop Nat) < s.best_cost then (current_cost : WithTop Nat)
      else s.best_cost
    let parents := sorted.take (population_size / 2)
    let cb := crossover_block parents n s.crossover_solutions
    let mb := mutation_block ops n mutation_rate cb.1 s.mutation_solutions s.rng
    some { population := (parents ++ mb.1).take population_size,
           best_tour := new_best_tour, best_cost := new_best_cost,
           history := s.history ++ [new_best_cost],
           crossover_solutions := cb.2, mutation_solutions := mb.2.1,
           rng := mb.2.2 }

/-- One generation of `memetic_tsp` (`memetic.py` lines 69–107): identical
to `gaStep` except that between crossover and mutation each child is, with
probability `local_search_prob`, replaced by `local_search_rotate_groups`
output with group count `groups_for_ls`. -/
def maStep {σ : Type} (ops : RngOps σ) (d : Nat → Nat → Nat)
    (n population_size : Nat) (mutation_rate local_search_prob : ℚ)
    (groups_for_ls : Nat) (s : GenState σ) : Option (GenState σ) :=
  match sortPop d s.population with
  | [] => none
  | current_best :: rest =>
    let sorted := current_best :: rest
    let current_cost := tour_length current_best d
    let new_best_tour : Option (List Nat) :=
      if (current_cost : WithTop Nat) < s.best_cost then some current_best
      else s.best_tour
    let new_best_cost : WithTop Nat :=
      if (current_cost : WithTop Nat) < s.best_cost then (current_cost : WithTop Nat)
      else s.best_cost
    let parents := sorted.take (population_size / 2)
    let cb := crossover_block parents n s.crossover_solutions
    match ls_block ops local_search_prob
        (fun t => local_search_rotate_groups t d groups_for_ls) cb.1 s.rng with
    | none => none
    | some (children, g1) =>
      let mb := mutation_block ops n mutation_rate children s.mutation_solutions g1
      some { population := (parents ++ mb.1).take population_size,
             best_tour := new_best_tour, best_cost := new_best_cost,
             history := s.history ++ [new_best_cost],
             crossover_solutions := cb.2, mutation_solutions := mb.2.1,
             rng := mb.2.2 }

/-- Population initialization of both engines: `population_size` shuffles of
`list(range(n))`, drawn in order from the generator. -/
def init_step {σ : Type} (ops : RngOps σ) (n : Nat)
    (acc : List (List Nat) × σ) (j : Nat) : List (List Nat) × σ :=
  let tg := ops.shuffle (List.range n) acc.2
  (acc.1 ++ [tg.1], tg.2)

def init_population {σ : Type} (ops : RngOps σ) (n population_size : Nat)
    (g0 : σ) : List (List Nat) × σ :=
  (List.range population_size).foldl (init_step ops n) ([], g0)

/-- Run a fallible generation step `iterations` times. -/
def stepIter {α : Type} (step : α → Option α) : Nat → α → Option α
  | 0, s => some s
  | k + 1, s =>
    match step s with
    | none => none
    | some s' => stepIter step k s'

/-- The result record returned by `genetic_tsp` / `memetic_tsp`. -/
structure SearchResult where
  best_tour : Option (List Nat)
  best_cost : WithTop Nat
  history : List (WithTop Nat)
  crossover_solutions : Nat
  mutation_solutions : Nat
  total_solutions : Nat
  time_ms : Nat
deriving DecidableEq

/-- Assemble the returned dict from the final loop state; `time_ms` is the
measured wall-clock duration, an input of the model. -/
def mkResult {σ : Type} (time_ms : Nat) (s : GenState σ) : SearchResult :=
  { best_tour := s.best_tour, best_cost := s.best_cost, history := s.history,
    crossover_solutions := s.crossover_solutions,
    mutation_solutions := s.mutation_solutions,
    total_solutions := s.crossover_solutions + s.mutation_solutions,
    time_ms := time_ms }

/-- `genetic_tsp` from `ga.py`.  The seeded generator is the initial state
`rng0`; the wall-clock elapsed time is the input `time_ms`. -/
def genetic_tsp {σ : Type} (ops : RngOps σ) (d : Nat → Nat → Nat) (n : Nat)
    (population_size iterations : Nat) (mutation_rate : ℚ) (rng0 : σ)
    (time_ms : Nat) : Option SearchResult :=
  let ip := init_population ops n population_size rng0
  let s0 : GenState σ := ⟨ip.1, none, ⊤, [], 0, 0, ip.2⟩
  (stepIter (gaStep ops d n population_size mutation_rate) iterations s0).map
    (mkResult time_ms)

/-- `memetic_tsp` from `memetic.py`. -/
def memetic_tsp {σ : Type} (ops : RngOps σ) (d : Nat → Nat → Nat) (n : Nat)
    (population_size iterations : Nat)
    (mutation_rate local_search_prob : ℚ) (groups_for_ls : Nat) (rng0 : σ)
    (time_ms : Nat) : Option SearchResult :=
  let ip := init_population ops n population_size rng0
  let s0 : GenState σ := ⟨ip.1, none, ⊤, [], 0, 0, ip.2⟩
  (stepIter (maStep ops d n population_size mutation_rate local_search_prob
    groups_for_ls) iterations s0).map (mkResult time_ms)

/-! ### The spec's configurable memetic orchestrator (§4.5) -/

/-- Modelled from the spec: §4.5 and §6 describe a `localSearchOperator`
configuration selecting one of the four local-search operators; `memetic.py`
has no such parameter, so the closed choice is modelled here for
comparison with the code. -/
inductive LSChoice where
  | rotate (g : Nat)
  | rotateIter (g : Nat)
  | rotateDyn (gs : List Nat)
  | twoOpt
deriving DecidableEq

/-- Modelled from the spec: dispatch of the configured operator name to the
library operator (§4.5, §6). -/
def applyLS (d : Nat → Nat → Nat) : LSChoice → List Nat → Option (List Nat)
  | .rotate g, t => local_search_rotate_groups t d g
  | .rotateIter g, t => local_search_rotate_groups_iterative t d g
  | .rotateDyn gs, t => local_search_rotate_groups_dynamic t d gs
  | .twoOpt, t => some (local_search_2opt t d)

/-- Modelled from the spec: the optional local-search pass over the
offspring (present exactly when a §4.5 operator is configured). -/
def lsApply {σ : Type} (ops : RngOps σ) (d : Nat → Nat → Nat)
    (ls : Option (ℚ × LSChoice)) (children : List (List Nat)) (g : σ) :
    Option (List (List Nat) × σ) :=
  match ls with
  | none => some (children, g)
  | some pc => ls_block ops pc.1 (applyLS d pc.2) children g

/-- Modelled from the spec: the body of one orchestrator generation once
the sorted population is known to be `current_best :: rest`. -/
def genStepCore {σ : Type} (ops : RngOps σ) (d : Nat → Nat → Nat)
    (n population_size : Nat) (mutation_rate : ℚ)
    (ls : Option (ℚ × LSChoice)) (s : GenState σ) (current_best : List Nat)
    (rest : List (List Nat)) : Option (GenState σ) :=
  match lsApply ops d ls
      (crossover_block ((current_best :: rest).take (population_size / 2)) n
        s.crossover_solutions).1 s.rng with
  | none => none
  | some (children, g1) =>
    some { population := ((current_best :: rest).take (population_size / 2) ++
             (mutation_block ops n mutation_rate children
               s.mutation_solutions g1).1).take population_size,
           best_tour :=
             if (tour_length current_best d : WithTop Nat) < s.best_cost then
               some current_best
             else s.best_tour,
           best_cost :=
             if (tour_length current_best d : WithTop Nat) < s.best_cost then
               (tour_length current_best d : WithTop Nat)
             else s.best_cost,
           history := s.history ++
             [if (tour_length current_best d : WithTop Nat) < s.best_cost then
                (tour_length current_best d : WithTop Nat)
              else s.best_cost],
           crossover_solutions :=
             (crossover_block ((current_best :: rest).take (population_size / 2))
               n s.crossover_solutions).2,
           mutation_solutions := (mutation_block ops n mutation_rate children
             s.mutation_solutions g1).2.1,
           rng := (mutation_block ops n mutation_rate children
             s.mutation_solutions g1).2.2 }

/-- Modelled from the spec: the generational loop of §4.3 with the optional
inserted local-search step of §4.5 between crossover and mutation. -/
def genStepWith {σ : Type} (ops : RngOps σ) (d : Nat → Nat → Nat)
    (n population_size : Nat) (mutation_rate : ℚ)
    (ls : Option (ℚ × LSChoice)) (s : GenState σ) : Option (GenState σ) :=
  match sortPop d s.population with
  | [] => none
  | current_best :: rest =>
    genStepCore ops d n population_size mutation_rate ls s current_best rest

/-- Modelled from the spec: a full run of the §4.5 orchestrator (the §4.3
loop plus the optional operator-dispatched local-search step). -/
def genRunWith {σ : Type} (ops : RngOps σ) (d : Nat → Nat → Nat) (n : Nat)
    (population_size iterations : Nat) (mutation_rate : ℚ)
    (ls : Option (ℚ × LSChoice)) (rng0 : σ) (time_ms : Nat) :
    Option SearchResult :=
  let ip := init_population ops n population_size rng0
  let s0 : GenState σ := ⟨ip.1, none, ⊤, [], 0, 0, ip.2⟩
  (stepIter (genStepWith ops d n population_size mutation_rate ls) iterations
    s0).map (mkResult time_ms)

/-! ### The exact solver (`exact_solver.py`) -/

/-- The mutable state shared by the recursive `backtrack`. -/
structure ExactState where
  best_tour : Option (List Nat)
  best_cost : WithTop Nat
  generated : Nat

/-- Per-vertex minimal outgoing edge cost, precomputed before the search
(`min_out` in `exact_solver.py`). -/
def min_out (d : Nat → Nat → Nat) (n i : Nat) : Nat :=
  (((List.range n).filter (fun j => decide (j ≠ i))).map (fun j => d i j)).min?.getD 0

/-- The optimistic remaining lower bound: the sum of minimal outgoing edge
costs over currently unvisited vertices, recomputed at each node. -/
def remaining_lb (d : Nat → Nat → Nat) (n : Nat) (path : List Nat) : Nat :=
  (((List.range n).filter (fun v => decide (v ∉ path))).map (min_out d n)).sum

/-- The recursive `backtrack` of `exact_solver.py`.  `path` is
`current_path` (starting `[0]`), `last`/`ccost` are the arguments, and
`fuel` bounds the recursion depth (`n - len(path)` suffices, as each call
extends the path by one vertex). -/
def exact_go (d : Nat → Nat → Nat) (n : Nat) :
    Nat → List Nat → Nat → Nat → ExactState → ExactState
  | fuel, path, last, ccost, st =>
    if path.length = n then
      if ((ccost + d last 0 : Nat) : WithTop Nat) < st.best_cost then
        ⟨some path, ((ccost + d last 0 : Nat) : WithTop Nat), st.generated + 1⟩
      else ⟨st.best_tour, st.best_cost, st.generated + 1⟩
    else if st.best_cost ≤ ((ccost + remaining_lb d n path : Nat) : WithTop Nat) then
      ⟨st.best_tour, st.best_cost, st.generated + 1⟩
    else
      match fuel with
      | 0 => ⟨st.best_tour, st.best_cost, st.generated + 1⟩
      | fuel' + 1 =>
        (List.range' 1 (n - 1)).foldl (fun acc v =>
          if v ∈ path then acc
          else exact_go d n fuel' (path ++ [v]) v (ccost + d last v) acc)
          ⟨st.best_tour, st.best_cost, st.generated + 1⟩

/-- `exact_tsp_backtracking` from `exact_solver.py`: the initial call is
`backtrack(0, 1, 0)` with `current_path = [0]`. -/
def exact_tsp_backtracking (d : Nat → Nat → Nat) (n : Nat) : ExactState :=
  exact_go d n (n - 1) [0] 0 0 ⟨none, ⊤, 0⟩

/-! ### Generic helper lemmas -/

theorem foldl_rec {α β : Type} (C : β → Prop) (op : β → α → β) :
    ∀ (l : List α) (b : β), C b → (∀ b a, C b → a ∈ l → C (op b a)) →
      C (l.foldl op b) := by
  intro l
  induction l with
  | nil => intro b hb _; exact hb
  | cons a t ih =>
    intro b hb hs
    exact ih (op b a) (hs b a hb (List.mem_cons_self a t))
      (fun b' a' hb' ha' => hs b' a' hb' (List.mem_cons_of_mem a ha'))

theorem drop_take_perm (l : List Nat) (s : Nat) : (l.drop s ++ l.take s).Perm l := by
  conv_rhs => rw [← List.take_append_drop s l]
  exact List.perm_append_comm

theorem splice_decomp (l : List Nat) (a b : Nat) :
    l.take a ++ ((l.drop a).take b ++ l.drop (a + b)) = l := by
  have h : l.drop (a + b) = (l.drop a).drop b := (List.drop_drop b a l).symm
  rw [h, List.take_append_drop, List.take_append_drop]

theorem nodup_mem_perm (A B : List Nat) (hA : A.Nodup) (hB : B.Nodup)
    (h : ∀ x, x ∈ A ↔ x ∈ B) : A.Perm B :=
  (List.Nodup.subperm hA (fun x hx => (h x).mp hx)).antisymm
    (List.Nodup.subperm hB (fun x hx => (h x).mpr hx))

/-! ### Crossover and mutation preserve the permutation invariant -/

/-- One repaired child (prefix of one parent followed by the other parent's
unused genes in order) is a permutation of the common vertex set. -/
theorem crossover_half_perm (p1 p2 l : List Nat) (k : Nat)
    (h1 : p1.Perm l) (h2 : p2.Perm l) (hnd : l.Nodup) :
    (p1.take k ++ p2.filter (fun g => decide (g ∉ p1.take k))).Perm l := by
  have hAnd : (p1.take k).Nodup := (List.take_sublist k p1).nodup (h1.nodup_iff.mpr hnd)
  have hAsub : ∀ x ∈ p1.take k, x ∈ l :=
    fun x hx => (h1.mem_iff).mp (List.take_subset k p1 hx)
  have hfilter : (p2.filter (fun g => decide (g ∉ p1.take k))).Perm
      (l.filter (fun g => decide (g ∉ p1.take k))) := h2.filter _
  have hAperm : (p1.take k).Perm (l.filter (fun g => decide (g ∈ p1.take k))) := by
    apply nodup_mem_perm _ _ hAnd (hnd.filter _)
    intro x
    simp only [List.mem_filter, decide_eq_true_eq]
    exact ⟨fun hx => ⟨hAsub x hx, hx⟩, fun hx => hx.2⟩
  have heq : (fun g => decide (g ∉ p1.take k)) =
      (fun g : Nat => !decide (g ∈ p1.take k)) := by
    funext g; exact decide_not
  have hperm2 : (l.filter (fun g => decide (g ∈ p1.take k)) ++
      l.filter (fun g : Nat => !decide (g ∈ p1.take k))).Perm l :=
    List.filter_append_perm _ l
  refine ((List.Perm.refl (p1.take k)).append hfilter).trans ?_
  rw [heq]
  exact (hAperm.append (List.Perm.refl _)).trans hperm2

theorem crossover_snd_eq (p1 p2 : List Nat) (k : Nat) :
    (crossover_one_point p1 p2 k).2 = (crossover_one_point p2 p1 k).1 := rfl

theorem cons_set_perm (l : List Nat) :
    ∀ (m a : Nat), m < l.length → (l.getD m 0 :: l.set m a).Perm (a :: l) := by
  induction l with
  | nil => intro m a h; simp at h
  | cons b r ih =>
    intro m a h
    cases m with
    | zero =>
      simp only [List.getD_cons_zero, List.set_cons_zero]
      exact List.Perm.swap a b r
    | succ k =>
      have hk : k < r.length := by simpa using h
      simp only [List.getD_cons_succ, List.set_cons_succ]
      exact (List.Perm.swap b (r.getD k 0) (r.set k a)).trans
        (((ih k a hk).cons b).trans (List.Perm.swap a b r))

/-- Swap mutation at two in-range positions permutes the tour. -/
theorem mutate_swap_perm (t : List Nat) :
    ∀ i j, i < t.length → j < t.length → (mutate_swap t i j).Perm t := by
  induction t with
  | nil => intro i j hi _; simp at hi
  | cons a l ih =>
    intro i j hi hj
    cases i with
    | zero =>
      cases j with
      | zero => simp [mutate_swap]
      | succ m =>
        have hm : m < l.length := by simpa using hj
        simp only [mutate_swap, List.getD_cons_succ, List.getD_cons_zero,
          List.set_cons_zero, List.set_cons_succ]
        exact cons_set_perm l m a hm
    | succ m =>
      cases j with
      | zero =>
        have hm : m < l.length := by simpa using hi
        simp only [mutate_swap, List.getD_cons_zero, List.getD_cons_succ,
          List.set_cons_succ, List.set_cons_zero]
        exact cons_set_perm l m a hm
      | succ k =>
        have hm : m < l.length := by simpa using hi
        have hk : k < l.length := by simpa using hj
        simp only [mutate_swap, List.getD_cons_succ, List.set_cons_succ]
        exact ((ih m k hm hk).cons a)

/-! ### Group rotation: exact cost tracking, monotonicity, permutation -/

/-- Invariant of the inner shift loop: the recorded cost is the exact cost
of splicing the recorded group back into the tour, it never exceeds the
incoming best cost, and the recorded group is a permutation of the original
group. -/
theorem rotate_inner_inv (d : Nat → Nat → Nat) (bt : List Nat)
    (start gs : Nat) (group : List Nat) (bc : Nat) (shifts : List Nat)
    (hbc : bc = tour_length (bt.take start ++ group ++ bt.drop (start + gs)) d) :
    (fun acc2 : List Nat × Nat =>
      acc2.2 = tour_length (bt.take start ++ acc2.1 ++ bt.drop (start + gs)) d ∧
      acc2.2 ≤ bc ∧ acc2.1.Perm group)
    (shifts.foldl (rotate_inner_step d bt start gs group) (group, bc)) := by
  refine foldl_rec
    (fun acc2 : List Nat × Nat =>
      acc2.2 = tour_length (bt.take start ++ acc2.1 ++ bt.drop (start + gs)) d ∧
      acc2.2 ≤ bc ∧ acc2.1.Perm group)
    (rotate_inner_step d bt start gs group) shifts (group, bc) ?_ ?_
  · exact ⟨hbc, le_refl _, List.Perm.refl _⟩
  · rintro ⟨cb, cbc⟩ shift ⟨hc1, hc2, hc3⟩ _
    unfold rotate_inner_step
    by_cases hlt : tour_length (bt.take start ++ (group.drop shift ++ group.take shift)
        ++ bt.drop (start + gs)) d < cbc
    · rw [if_pos hlt]
      exact ⟨rfl, le_trans (le_of_lt hlt) hc2, drop_take_perm group shift⟩
    · rw [if_neg hlt]
      exact ⟨hc1, hc2, hc3⟩

/-- Invariant of the outer group loop: the running tour stays a permutation
of the input, its recorded cost is exact, and it never worsens. -/
theorem rotate_outer_inv (d : Nat → Nat → Nat) (tour : List Nat) (gs : Nat)
    (glist : List Nat) :
    (fun acc : List Nat × Nat => acc.1.Perm tour ∧
      acc.2 = tour_length acc.1 d ∧ acc.2 ≤ tour_length tour d)
    (glist.foldl (rotate_outer_step d gs) (tour, tour_length tour d)) := by
  refine foldl_rec
    (fun acc : List Nat × Nat => acc.1.Perm tour ∧
      acc.2 = tour_length acc.1 d ∧ acc.2 ≤ tour_length tour d)
    (rotate_outer_step d gs) glist (tour, tour_length tour d) ?_ ?_
  · exact ⟨List.Perm.refl _, rfl, le_refl _⟩
  · rintro ⟨bt, bc⟩ g ⟨hbp, hbc, hble⟩ _
    dsimp only [rotate_outer_step]
    have hsplice : bt.take (g * gs) ++ (bt.drop (g * gs)).take gs ++
        bt.drop (g * gs + gs) = bt := by
      rw [List.append_assoc]
      exact splice_decomp bt (g * gs) gs
    have hinner := rotate_inner_inv d bt (g * gs) gs ((bt.drop (g * gs)).take gs)
      bc (List.range' 1 (gs - 1)) (by rw [hsplice]; exact hbc)
    have hperm : (bt.take (g * gs) ++ (bt.drop (g * gs)).take gs ++
        bt.drop (g * gs + gs)).Perm tour := hsplice.symm ▸ hbp
    refine ⟨?_, hinner.1, le_trans hinner.2.1 hble⟩
    exact (((List.Perm.refl (bt.take (g * gs))).append hinner.2.2).append
      (List.Perm.refl (bt.drop (g * gs + gs)))).trans hperm

/-- Main invariant of `local_search_rotate_groups`: a successful call
returns a permutation of the input whose cost never exceeds the input's. -/
theorem rotate_groups_spec (tour : List Nat) (d : Nat → Nat → Nat)
    (groups : Nat) (t' : List Nat)
    (h : local_search_rotate_groups tour d groups = some t') :
    t'.Perm tour ∧ tour_length t' d ≤ tour_length tour d := by
  unfold local_search_rotate_groups at h
  by_cases hg : groups = 0
  · simp [hg] at h
  · rw [if_neg hg] at h
    by_cases hnd : tour.length % groups ≠ 0
    · rw [if_pos hnd, Option.some_inj] at h
      subst h
      exact ⟨List.Perm.refl _, le_refl _⟩
    · rw [if_neg hnd, Option.some_inj] at h
      subst h
      have hfold := rotate_outer_inv d tour (tour.length / groups)
        (List.range groups)
      exact ⟨hfold.1, hfold.2.1 ▸ hfold.2.2⟩

/-- A successful iterated rotation pass permutes the input and never
worsens it. -/
theorem ls_rotate_iter_go_spec (d : Nat → Nat → Nat) (groups : Nat)
    (current : List Nat) :
    ∀ t', ls_rotate_iter_go d groups current = some t' →
      t'.Perm current ∧ tour_length t' d ≤ tour_length current d := by
  induction current using ls_rotate_iter_go.induct d groups with
  | case1 cur hnone =>
    intro t' h
    unfold ls_rotate_iter_go at h
    rw [hnone] at h
    exact absurd h (by simp)
  | case2 cur new hsome h2 ih =>
    intro t' h
    unfold ls_rotate_iter_go at h
    rw [hsome] at h
    change (if h2 : tour_length new d < tour_length cur d then
      ls_rotate_iter_go d groups new else some cur) = some t' at h
    rw [dif_pos h2] at h
    obtain ⟨hp, hle⟩ := ih t' h
    have hr := rotate_groups_spec cur d groups new hsome
    exact ⟨hp.trans hr.1, le_trans hle (le_of_lt h2)⟩
  | case3 cur new hsome h2 =>
    intro t' h
    unfold ls_rotate_iter_go at h
    rw [hsome] at h
    change (if h2 : tour_length new d < tour_length cur d then
      ls_rotate_iter_go d groups new else some cur) = some t' at h
    rw [dif_neg h2, Option.some_inj] at h
    subst h
    exact ⟨List.Perm.refl _, le_refl _⟩

/-- A successful dynamic-rotation pass permutes the input tour. -/
theorem ls_dyn_fold_perm (d : Nat → Nat → Nat) (gs : List Nat) :
    ∀ (t0 : List Nat) (b0 : Bool) (t' : List Nat) (b : Bool),
      gs.foldl (ls_dyn_step d) (some (t0, b0)) = some (t', b) → t'.Perm t0 := by
  induction gs with
  | nil =>
    intro t0 b0 t' b h
    simp only [List.foldl_nil, Option.some.injEq, Prod.mk.injEq] at h
    rw [h.1]
  | cons g gs ih =>
    intro t0 b0 t' b h
    rw [List.foldl_cons] at h
    rcases hcase : local_search_rotate_groups t0 d g with _ | new
    · rw [show ls_dyn_step d (some (t0, b0)) g = none by
        simp [ls_dyn_step, hcase]] at h
      rw [ls_dyn_fold_none] at h
      exact absurd h (by simp)
    · by_cases hlt : tour_length new d < tour_length t0 d
      · rw [show ls_dyn_step d (some (t0, b0)) g = some (new, true) by
          simp [ls_dyn_step, hcase, hlt]] at h
        exact (ih new true t' b h).trans (rotate_groups_spec t0 d g new hcase).1
      · rw [show ls_dyn_step d (some (t0, b0)) g = some (t0, b0) by
          simp [ls_dyn_step, hcase, hlt]] at h
        exact ih t0 b0 t' b h

/-- A successful dynamic-rotation loop permutes the input and never
worsens it. -/
theorem ls_rotate_dyn_go_spec (d : Nat → Nat → Nat) (group_sizes : List Nat)
    (current : List Nat) :
    ∀ t', ls_rotate_dyn_go d group_sizes current = some t' →
      t'.Perm current ∧ tour_length t' d ≤ tour_length current d := by
  induction current using ls_rotate_dyn_go.induct d group_sizes with
  | case1 cur hnone =>
    intro t' h
    unfold ls_rotate_dyn_go at h
    rw [hnone] at h
    exact absurd h (by simp)
  | case2 cur t hpass ih =>
    intro t' h
    unfold ls_rotate_dyn_go at h
    rw [hpass] at h
    change (if h2 : (true : Bool) = true then ls_rotate_dyn_go d group_sizes t
      else some t) = some t' at h
    rw [dif_pos rfl] at h
    obtain ⟨hp, hle⟩ := ih t' h
    have hcost := ls_rotate_dyn_pass_cost d group_sizes cur t true hpass
    have hperm := ls_dyn_fold_perm d group_sizes cur false t true hpass
    exact ⟨hp.trans hperm, le_trans hle hcost.1⟩
  | case3 cur t improved hsome h2 =>
    intro t' h
    unfold ls_rotate_dyn_go at h
    rw [hsome] at h
    change (if h2 : improved = true then ls_rotate_dyn_go d group_sizes t
      else some t) = some t' at h
    rw [dif_neg h2, Option.some_inj] at h
    subst h
    have hcost := ls_rotate_dyn_pass_cost d group_sizes cur t improved hsome
    have hperm := ls_dyn_fold_perm d group_sizes cur false t improved hsome
    exact ⟨hperm, hcost.1⟩

/-! ### 2-opt: the cost identity of a segment reversal -/

/-- Sum of the costs of consecutive (non-wrapping) edges of a path. -/
def adjSum (d : Nat → Nat → Nat) : List Nat → Nat
  | [] => 0
  | [_] => 0
  | a :: b :: rest => d a b + adjSum d (b :: rest)

theorem adjSum_cons (d : Nat → Nat → Nat) (a : Nat) (l : List Nat)
    (h : l ≠ []) : adjSum d (a :: l) = d a (l.headD 0) + adjSum d l := by
  cases l with
  | nil => contradiction
  | cons b r => rfl

theorem getLastD_cons_ne_nil (a : Nat) (l : List Nat) (h : l ≠ []) :
    (a :: l).getLastD 0 = l.getLastD 0 := by
  cases l with
  | nil => contradiction
  | cons b r => rfl

theorem adjSum_append (d : Nat → Nat → Nat) (B : List Nat) :
    ∀ (A : List Nat), A ≠ [] → B ≠ [] →
    adjSum d (A ++ B) = adjSum d A + d (A.getLastD 0) (B.headD 0) + adjSum d B := by
  intro A
  induction A with
  | nil => intro hA _; contradiction
  | cons a A' ih =>
    intro _ hB
    cases A' with
    | nil =>
      simp only [List.cons_append, List.nil_append]
      rw [adjSum_cons d a B hB]
      show d a (B.headD 0) + adjSum d B = adjSum d [a] + d a (B.headD 0) + adjSum d B
      show d a (B.headD 0) + adjSum d B = 0 + d a (B.headD 0) + adjSum d B
      omega
    | cons a2 A'' =>
      have h1 : (a :: a2 :: A'') ++ B = a :: ((a2 :: A'') ++ B) := rfl
      have h2 : (a2 :: A'') ++ B = a2 :: (A'' ++ B) := rfl
      rw [h1]
      have h3 : adjSum d (a :: ((a2 :: A'') ++ B)) =
          d a a2 + adjSum d ((a2 :: A'') ++ B) := by rw [h2]; rfl
      rw [h3, ih (by simp) hB]
      have h4 : adjSum d (a :: a2 :: A'') = d a a2 + adjSum d (a2 :: A'') := rfl
      have h5 : (a :: a2 :: A'').getLastD 0 = (a2 :: A'').getLastD 0 :=
        getLastD_cons_ne_nil a _ (by simp)
      rw [h4, h5]
      omega

theorem adjSum_reverse (d : Nat → Nat → Nat) (hsym : ∀ a b, d a b = d b a) :
    ∀ (l : List Nat), adjSum d l.reverse = adjSum d l := by
  intro l
  induction l with
  | nil => rfl
  | cons a l ih =>
    cases l with
    | nil => rfl
    | cons b r =>
      have hrev : (b :: r).reverse ≠ [] := by simp
      rw [List.reverse_cons, adjSum_append d [a] _ hrev (by simp), ih]
      have hlast : ((b :: r).reverse).getLastD 0 = b := by
        rw [List.getLastD_eq_getLast?, List.getLast?_reverse]
        rfl
      rw [hlast]
      have h1 : adjSum d (a :: b :: r) = d a b + adjSum d (b :: r) := rfl
      have h2 : adjSum d [a] = 0 := rfl
      have h3 : ([a] : List Nat).headD 0 = a := rfl
      rw [h1, h2, h3, hsym b a]
      omega

theorem getD_zero_eq_headD (l : List Nat) : l.getD 0 0 = l.headD 0 := by
  cases l <;> rfl

theorem getD_last_eq_getLastD :
    ∀ (l : List Nat), l.getD (l.length - 1) 0 = l.getLastD 0 := by
  intro l
  induction l with
  | nil => rfl
  | cons a l ih =>
    cases l with
    | nil => rfl
    | cons b r =>
      have hlen : (a :: b :: r).length - 1 = r.length + 1 := by simp
      rw [hlen]
      have h1 : (a :: b :: r).getD (r.length + 1) 0 = (b :: r).getD r.length 0 :=
        List.getD_cons_succ
      have h2 : (b :: r).length - 1 = r.length := by simp
      rw [h1, ← h2, ih, getLastD_cons_ne_nil a _ (by simp)]

theorem adjSum_eq_rangeSum (d : Nat → Nat → Nat) :
    ∀ (t : List Nat),
    ((List.range (t.length - 1)).map
      (fun i => d (t.getD i 0) (t.getD (i + 1) 0))).sum = adjSum d t := by
  intro t
  induction t with
  | nil => rfl
  | cons a l ih =>
    cases l with
    | nil => rfl
    | cons b r =>
      have hlen : (a :: b :: r).length - 1 = r.length + 1 := by simp
      rw [hlen, List.range_succ_eq_map, List.map_cons, List.sum_cons, List.map_map]
      have hfun : ((fun i => d ((a :: b :: r).getD i 0) ((a :: b :: r).getD (i + 1) 0))
          ∘ Nat.succ) = (fun i => d ((b :: r).getD i 0) ((b :: r).getD (i + 1) 0)) := by
        funext i
        simp [Function.comp, List.getD_cons_succ]
      rw [hfun]
      have h2 : (b :: r).length - 1 = r.length := by simp
      rw [← h2, ih]
      rfl

/-- The cyclic tour cost decomposes into the path cost plus the closing
edge. -/
theorem tour_length_eq_adjSum (t : List Nat) (d : Nat → Nat → Nat)
    (h : t ≠ []) :
    tour_length t d = adjSum d t + d (t.getLastD 0) (t.headD 0) := by
  have hpos : 0 < t.length := List.length_pos.mpr h
  unfold tour_length
  have hsplit : List.range t.length = List.range (t.length - 1) ++ [t.length - 1] := by
    conv_lhs => rw [show t.length = (t.length - 1) + 1 by omega]
    exact List.range_succ (t.length - 1)
  rw [hsplit, List.map_append, List.sum_append]
  have hmod : (t.length - 1 + 1) % t.length = 0 := by
    rw [show t.length - 1 + 1 = t.length by omega, Nat.mod_self]
  have htail : ([t.length - 1].map
      (fun i => d (t.getD i 0) (t.getD ((i + 1) % t.length) 0))).sum
      = d (t.getLastD 0) (t.headD 0) := by
    simp only [List.map_cons, List.map_nil, List.sum_cons, List.sum_nil, Nat.add_zero]
    rw [hmod, getD_zero_eq_headD, getD_last_eq_getLastD]
  rw [htail]
  have hhead : (List.range (t.length - 1)).map
      (fun i => d (t.getD i 0) (t.getD ((i + 1) % t.length) 0))
      = (List.range (t.length - 1)).map
      (fun i => d (t.getD i 0) (t.getD (i + 1) 0)) := by
    apply List.map_congr_left
    intro i hi
    rw [List.mem_range] at hi
    rw [Nat.mod_eq_of_lt (by omega)]
  rw [hhead, adjSum_eq_rangeSum]

theorem getD_take_lt (l : List Nat) (m i : Nat) (h : i < m) :
    (l.take m).getD i 0 = l.getD i 0 := by
  rw [List.getD_eq_getElem?_getD, List.getD_eq_getElem?_getD,
    List.getElem?_take, if_pos h]

theorem getD_drop_add (l : List Nat) (m i : Nat) :
    (l.drop m).getD i 0 = l.getD (m + i) 0 := by
  rw [List.getD_eq_getElem?_getD, List.getD_eq_getElem?_getD, List.getElem?_drop]

theorem headD_eq_headq (l : List Nat) : l.headD 0 = l.head?.getD 0 := by
  cases l <;> rfl

theorem headD_append (l₁ l₂ : List Nat) (h : l₁ ≠ []) :
    (l₁ ++ l₂).headD 0 = l₁.headD 0 := by
  cases l₁ with
  | nil => contradiction
  | cons a r => rfl

theorem lastD_append (l₁ l₂ : List Nat) (h : l₂ ≠ []) :
    (l₁ ++ l₂).getLastD 0 = l₂.getLastD 0 := by
  rw [List.getLastD_eq_getLast?, List.getLastD_eq_getLast?,
    List.getLast?_append_of_ne_nil _ h]

theorem headD_reverse (l : List Nat) : l.reverse.headD 0 = l.getLastD 0 := by
  rw [headD_eq_headq, List.head?_reverse, ← List.getLastD_eq_getLast?]

theorem lastD_reverse (l : List Nat) : l.reverse.getLastD 0 = l.headD 0 := by
  rw [List.getLastD_eq_getLast?, List.getLast?_reverse, ← headD_eq_headq]

/-- The 2-opt cost identity: reversing the segment between edges
`(i, i+1)` and `(j, j+1)` exchanges exactly those two edges for the crossed
pair, for a symmetric cost table.  Stated additively to stay in `Nat`. -/
theorem two_opt_reversal_eq (d : Nat → Nat → Nat) (hsym : ∀ a b, d a b = d b a)
    (t : List Nat) (i j : Nat) (hij : i + 2 ≤ j) (hj : j < t.length)
    (hne : ¬(i = 0 ∧ j = t.length - 1)) :
    tour_length (t.take (i + 1) ++ ((t.drop (i + 1)).take (j - i)).reverse
      ++ t.drop (j + 1)) d
      + (d (t.getD i 0) (t.getD (i + 1) 0) +
         d (t.getD j 0) (t.getD ((j + 1) % t.length) 0))
    = tour_length t d
      + (d (t.getD i 0) (t.getD j 0) +
         d (t.getD (i + 1) 0) (t.getD ((j + 1) % t.length) 0)) := by
  have hlenA : (t.take (i + 1)).length = i + 1 := by
    rw [List.length_take]; omega
  have hlenS : ((t.drop (i + 1)).take (j - i)).length = j - i := by
    rw [List.length_take, List.length_drop]; omega
  set A := t.take (i + 1) with hAdef
  set S := (t.drop (i + 1)).take (j - i) with hSdef
  set B := t.drop (j + 1) with hBdef
  have hA : A ≠ [] := by
    intro hnil; rw [hnil] at hlenA; simp at hlenA
  have hS : S ≠ [] := by
    intro hnil; rw [hnil] at hlenS; simp at hlenS; omega
  have hSrev : S.reverse ≠ [] := by simpa using hS
  have hsplit : A ++ (S ++ B) = t := by
    rw [hAdef, hSdef, hBdef]
    have h := splice_decomp t (i + 1) (j - i)
    rwa [show i + 1 + (j - i) = j + 1 by omega] at h
  have hu : A.getLastD 0 = t.getD i 0 := by
    rw [← getD_last_eq_getLastD, hlenA, Nat.add_sub_cancel, hAdef]
    exact getD_take_lt t (i + 1) i (by omega)
  have hv : S.headD 0 = t.getD (i + 1) 0 := by
    rw [← getD_zero_eq_headD, hSdef, getD_take_lt _ _ 0 (by omega),
      getD_drop_add, Nat.add_zero]
  have hx : S.getLastD 0 = t.getD j 0 := by
    rw [← getD_last_eq_getLastD, hlenS, hSdef,
      getD_take_lt _ _ (j - i - 1) (by omega), getD_drop_add,
      show i + 1 + (j - i - 1) = j by omega]
  by_cases hB : j + 1 < t.length
  · -- the reversed segment is interior: the closing edge is untouched
    have hBne : B ≠ [] := by
      rw [hBdef]
      intro hnil
      have := congrArg List.length hnil
      rw [List.length_drop] at this
      simp at this
      omega
    have hy : B.headD 0 = t.getD ((j + 1) % t.length) 0 := by
      rw [Nat.mod_eq_of_lt hB, ← getD_zero_eq_headD, hBdef, getD_drop_add,
        Nat.add_zero]
    rw [← hu, ← hv, ← hx, ← hy, ← hsplit]
    have hSB : S ++ B ≠ [] := by simp [hS]
    have hSrB : S.reverse ++ B ≠ [] := by simp [hSrev]
    have hfullrev : A ++ S.reverse ++ B ≠ [] := by simp [hA]
    rw [List.append_assoc A S.reverse B]
    rw [tour_length_eq_adjSum _ d (by simp [hA]),
      tour_length_eq_adjSum _ d (by simp [hA])]
    rw [adjSum_append d (S.reverse ++ B) A hA hSrB,
      adjSum_append d (S ++ B) A hA hSB,
      adjSum_append d B S.reverse hSrev hBne,
      adjSum_append d B S hS hBne]
    rw [headD_append S.reverse B hSrev, headD_append S B hS,
      lastD_append A (S.reverse ++ B) hSrB, lastD_append A (S ++ B) hSB,
      lastD_append S.reverse B hBne, lastD_append S B hBne,
      headD_append A (S.reverse ++ B) hA, headD_append A (S ++ B) hA,
      adjSum_reverse d hsym S, headD_reverse S, lastD_reverse S]
    omega
  · -- the reversed segment reaches the end: the closing edge is edge (j, j+1)
    have hjn : j + 1 = t.length := by omega
    have hi0 : i ≠ 0 := by
      intro h0
      exact hne ⟨h0, by omega⟩
    have hBnil : B = [] := by
      rw [hBdef, hjn]
      exact List.drop_length t
    have hy : A.headD 0 = t.getD ((j + 1) % t.length) 0 := by
      rw [hjn, Nat.mod_self, ← getD_zero_eq_headD, hAdef,
        getD_take_lt _ _ 0 (by omega)]
    rw [← hu, ← hv, ← hx, ← hy, ← hsplit, hBnil]
    rw [List.append_nil, List.append_nil]
    rw [tour_length_eq_adjSum _ d (by simp [hA]),
      tour_length_eq_adjSum _ d (by simp [hA])]
    rw [adjSum_append d S.reverse A hA hSrev,
      adjSum_append d S A hA hS,
      lastD_append A S.reverse hSrev, lastD_append A S hS,
      headD_append A S.reverse hA, headD_append A S hA,
      adjSum_reverse d hsym S, headD_reverse S, lastD_reverse S]
    omega

/-- An applied 2-opt move permutes the tour and (for symmetric costs)
strictly decreases its cycle cost. -/
theorem two_opt_move_spec (d : Nat → Nat → Nat) (hsym : ∀ a b, d a b = d b a)
    (t : List Nat) (i j : Nat) (hij : i + 2 ≤ j) (hj : j < t.length)
    (hne : ¬(i = 0 ∧ j = t.length - 1))
    (himp : d (t.getD i 0) (t.getD j 0) +
        d (t.getD (i + 1) 0) (t.getD ((j + 1) % t.length) 0)
      < d (t.getD i 0) (t.getD (i + 1) 0) +
        d (t.getD j 0) (t.getD ((j + 1) % t.length) 0)) :
    (t.take (i + 1) ++ ((t.drop (i + 1)).take (j - i)).reverse
      ++ t.drop (j + 1)).Perm t ∧
    tour_length (t.take (i + 1) ++ ((t.drop (i + 1)).take (j - i)).reverse
      ++ t.drop (j + 1)) d < tour_length t d := by
  constructor
  · have hsplit : t.take (i + 1) ++ ((t.drop (i + 1)).take (j - i) ++ t.drop (j + 1)) = t := by
      have h := splice_decomp t (i + 1) (j - i)
      rwa [show i + 1 + (j - i) = j + 1 by omega] at h
    have hstep : (t.take (i + 1) ++ ((t.drop (i + 1)).take (j - i)).reverse
        ++ t.drop (j + 1)).Perm
        (t.take (i + 1) ++ ((t.drop (i + 1)).take (j - i)) ++ t.drop (j + 1)) :=
      (((List.Perm.refl _).append
        (List.reverse_perm ((t.drop (i + 1)).take (j - i)))).append (List.Perm.refl _))
    refine hstep.trans ?_
    rw [List.append_assoc, hsplit]
  · have heq := two_opt_reversal_eq d hsym t i j hij hj hne
    omega

/-- Invariant of the inner 2-opt scan: the running tour stays a permutation
of the input and never worsens. -/
theorem two_opt_inner_inv (d : Nat → Nat → Nat) (hsym : ∀ a b, d a b = d b a)
    (tour : List Nat) (i : Nat) (js : List Nat)
    (hjs : ∀ j ∈ js, i + 2 ≤ j ∧ j < tour.length) (acc2 : List Nat × Bool)
    (hC : acc2.1.Perm tour ∧ tour_length acc2.1 d ≤ tour_length tour d) :
    (js.foldl (two_opt_inner_step d tour.length i) acc2).1.Perm tour ∧
    tour_length ((js.foldl (two_opt_inner_step d tour.length i) acc2).1) d
      ≤ tour_length tour d := by
  refine foldl_rec
    (fun acc2 : List Nat × Bool => acc2.1.Perm tour ∧
      tour_length acc2.1 d ≤ tour_length tour d)
    (two_opt_inner_step d tour.length i) js acc2 hC ?_
  rintro ⟨t, imp⟩ j ⟨hperm, hcost⟩ hmem
  obtain ⟨hij, hjlt⟩ := hjs j hmem
  have hlen : t.length = tour.length := hperm.length_eq
  dsimp only [two_opt_inner_step]
  by_cases hguard : i = 0 ∧ j = tour.length - 1
  · rw [if_pos hguard]
    exact ⟨hperm, hcost⟩
  · rw [if_neg hguard]
    by_cases himp : d (t.getD i 0) (t.getD j 0) +
        d (t.getD (i + 1) 0) (t.getD ((j + 1) % tour.length) 0)
      < d (t.getD i 0) (t.getD (i + 1) 0) +
        d (t.getD j 0) (t.getD ((j + 1) % tour.length) 0)
    · rw [if_pos himp]
      have hmv := two_opt_move_spec d hsym t i j hij (by rw [hlen]; exact hjlt)
        (by rw [hlen]; exact hguard) (by rw [hlen]; exact himp)
      exact ⟨hmv.1.trans hperm, le_trans (le_of_lt hmv.2) hcost⟩
    · rw [if_neg himp]
      exact ⟨hperm, hcost⟩

/-- Invariant of one full 2-opt pass. -/
theorem two_opt_pass_spec (d : Nat → Nat → Nat) (hsym : ∀ a b, d a b = d b a)
    (tour : List Nat) :
    (two_opt_pass d tour).1.Perm tour ∧
    tour_length (two_opt_pass d tour).1 d ≤ tour_length tour d := by
  unfold two_opt_pass
  refine foldl_rec
    (fun acc : List Nat × Bool => acc.1.Perm tour ∧
      tour_length acc.1 d ≤ tour_length tour d)
    (two_opt_outer_step d tour.length) (List.range (tour.length - 1))
    (tour, false) ⟨List.Perm.refl _, le_refl _⟩ ?_
  intro acc i hC _
  unfold two_opt_outer_step
  refine two_opt_inner_inv d hsym tour i _ ?_ acc hC
  intro j hj
  rw [List.mem_range'] at hj
  obtain ⟨m, hm, he⟩ := hj
  omega

/-- The 2-opt loop returns a permutation of the input with no worse cost
(symmetric cost tables). -/
theorem two_opt_go_spec (d : Nat → Nat → Nat) (hsym : ∀ a b, d a b = d b a) :
    ∀ (t0 : List Nat), (two_opt_go d t0).Perm t0 ∧
      tour_length (two_opt_go d t0) d ≤ tour_length t0 d := by
  intro t0
  induction t0 using two_opt_go.induct d with
  | case1 cur p hcond ih =>
    have hcond' : (two_opt_pass d cur).2 = true ∧
        tour_length (two_opt_pass d cur).1 d < tour_length cur d := hcond
    have ih' : (two_opt_go d (two_opt_pass d cur).1).Perm (two_opt_pass d cur).1 ∧
        tour_length (two_opt_go d (two_opt_pass d cur).1) d
          ≤ tour_length (two_opt_pass d cur).1 d := ih
    have hpass := two_opt_pass_spec d hsym cur
    rw [two_opt_go]
    rw [dif_pos hcond']
    exact ⟨ih'.1.trans hpass.1, le_trans ih'.2 hpass.2⟩
  | case2 cur p hcond =>
    have hcond' : ¬((two_opt_pass d cur).2 = true ∧
        tour_length (two_opt_pass d cur).1 d < tour_length cur d) := hcond
    rw [two_opt_go]
    rw [dif_neg hcond']
    exact two_opt_pass_spec d hsym cur

/-- A fixed symmetric cost table used by concrete witnesses. -/
def dsum : Nat → Nat → Nat := fun a b => a + b

/-! ### Claim C2: local-search monotonicity -/

/-- C2: every local-search operator (group rotation, iterative group
rotation, dynamic group rotation, 2-opt) returns a tour whose cycle cost is
at most the input's, for every input tour that is a permutation of `[0,n)`
and all operator parameters (the cost model is symmetric, §1). -/
theorem local_search_monotone (d : Nat → Nat → Nat) (n : Nat)
    (hsym : ∀ a b, d a b = d b a) (t : List Nat)
    (hperm : t.Perm (List.range n)) :
    (∀ g t', local_search_rotate_groups t d g = some t' →
        tour_length t' d ≤ tour_length t d) ∧
    (∀ g t', local_search_rotate_groups_iterative t d g = some t' →
        tour_length t' d ≤ tour_length t d) ∧
    (∀ gs t', local_search_rotate_groups_dynamic t d gs = some t' →
        tour_length t' d ≤ tour_length t d) ∧
    tour_length (local_search_2opt t d) d ≤ tour_length t d := by
  refine ⟨?_, ?_, ?_, ?_⟩
  · intro g t' h; exact (rotate_groups_spec t d g t' h).2
  · intro g t' h; exact (ls_rotate_iter_go_spec d g t t' h).2
  · intro gs t' h; exact (ls_rotate_dyn_go_spec d gs t t' h).2
  · exact (two_opt_go_spec d hsym t).2

/-- Witness for C2 at a concrete symmetric instance. -/
theorem local_search_monotone_witness :
    (∀ a b, dsum a b = dsum b a) ∧ ([1, 0] : List Nat).Perm (List.range 2) ∧
    ((∀ g t', local_search_rotate_groups [1, 0] dsum g = some t' →
        tour_length t' dsum ≤ tour_length [1, 0] dsum) ∧
     (∀ g t', local_search_rotate_groups_iterative [1, 0] dsum g = some t' →
        tour_length t' dsum ≤ tour_length [1, 0] dsum) ∧
     (∀ gs t', local_search_rotate_groups_dynamic [1, 0] dsum gs = some t' →
        tour_length t' dsum ≤ tour_length [1, 0] dsum) ∧
     tour_length (local_search_2opt [1, 0] dsum) dsum ≤
        tour_length [1, 0] dsum) :=
  ⟨fun a b => Nat.add_comm a b, by decide,
    local_search_monotone dsum 2 (fun a b => Nat.add_comm a b) [1, 0] (by decide)⟩

/-! ### Claim C3: the permutation invariant -/

/-- C3: both crossover children, swap mutation at two in-range positions,
and every local-search output are permutations of `[0,n)` whenever the
inputs are. -/
theorem permutation_invariant (n : Nat) (d : Nat → Nat → Nat)
    (hsym : ∀ a b, d a b = d b a) (p1 p2 t : List Nat) (k i j : Nat)
    (h1 : p1.Perm (List.range n)) (h2 : p2.Perm (List.range n))
    (ht : t.Perm (List.range n)) (hi : i < n) (hj : j < n) :
    ((crossover_one_point p1 p2 k).1).Perm (List.range n) ∧
    ((crossover_one_point p1 p2 k).2).Perm (List.range n) ∧
    (mutate_swap t i j).Perm (List.range n) ∧
    (∀ g t', local_search_rotate_groups t d g = some t' →
      t'.Perm (List.range n)) ∧
    (∀ g t', local_search_rotate_groups_iterative t d g = some t' →
      t'.Perm (List.range n)) ∧
    (∀ gs t', local_search_rotate_groups_dynamic t d gs = some t' →
      t'.Perm (List.range n)) ∧
    (local_search_2opt t d).Perm (List.range n) := by
  have hlen : t.length = n := by simpa using ht.length_eq
  refine ⟨?_, ?_, ?_, ?_, ?_, ?_, ?_⟩
  · exact crossover_half_perm p1 p2 _ k h1 h2 (List.nodup_range n)
  · rw [crossover_snd_eq]
    exact crossover_half_perm p2 p1 _ k h2 h1 (List.nodup_range n)
  · exact (mutate_swap_perm t i j (by omega) (by omega)).trans ht
  · intro g t' h; exact (rotate_groups_spec t d g t' h).1.trans ht
  · intro g t' h; exact (ls_rotate_iter_go_spec d g t t' h).1.trans ht
  · intro gs t' h; exact (ls_rotate_dyn_go_spec d gs t t' h).1.trans ht
  · exact (two_opt_go_spec d hsym t).1.trans ht

/-- Witness for C3 at a concrete instance. -/
theorem permutation_invariant_witness :
    (∀ a b, dsum a b = dsum b a) ∧
    ([0, 1, 2, 3] : List Nat).Perm (List.range 4) ∧
    ([3, 2, 1, 0] : List Nat).Perm (List.range 4) ∧
    ([2, 3, 0, 1] : List Nat).Perm (List.range 4) ∧ 0 < 4 ∧ 1 < 4 ∧
    (((crossover_one_point [0, 1, 2, 3] [3, 2, 1, 0] 2).1).Perm (List.range 4) ∧
     ((crossover_one_point [0, 1, 2, 3] [3, 2, 1, 0] 2).2).Perm (List.range 4) ∧
     (mutate_swap [2, 3, 0, 1] 0 1).Perm (List.range 4) ∧
     (∀ g t', local_search_rotate_groups [2, 3, 0, 1] dsum g = some t' →
       t'.Perm (List.range 4)) ∧
     (∀ g t', local_search_rotate_groups_iterative [2, 3, 0, 1] dsum g = some t' →
       t'.Perm (List.range 4)) ∧
     (∀ gs t', local_search_rotate_groups_dynamic [2, 3, 0, 1] dsum gs = some t' →
       t'.Perm (List.range 4)) ∧
     (local_search_2opt [2, 3, 0, 1] dsum).Perm (List.range 4)) :=
  ⟨fun a b => Nat.add_comm a b, by decide, by decide, by decide, by decide,
    by decide,
    permutation_invariant 4 dsum (fun a b => Nat.add_comm a b)
      [0, 1, 2, 3] [3, 2, 1, 0] [2, 3, 0, 1] 2 0 1
      (by decide) (by decide) (by decide) (by decide) (by decide)⟩

/-! ### Claim C8: group rotation with a non-dividing group count -/

/-- C8 (amended): for every nonzero group count that does not divide the
tour length, `local_search_rotate_groups` returns the input tour unchanged
without failing. -/
theorem rotate_groups_noop (tour : List Nat) (d : Nat → Nat → Nat)
    (groups : Nat) (hg : groups ≠ 0) (hnd : tour.length % groups ≠ 0) :
    local_search_rotate_groups tour d groups = some tour := by
  unfold local_search_rotate_groups
  rw [if_neg hg, if_pos hnd]

/-- Witness for C8's amended theorem at a concrete input. -/
theorem rotate_groups_noop_witness :
    (2 : Nat) ≠ 0 ∧ ([0, 1, 2] : List Nat).length % 2 ≠ 0 ∧
      local_search_rotate_groups [0, 1, 2] (fun _ _ => 1) 2 = some [0, 1, 2] :=
  ⟨by decide, by decide,
    rotate_groups_noop [0, 1, 2] (fun _ _ => 1) 2 (by decide) (by decide)⟩

/-- Counterexample to C8 as stated: the group count `0` does not divide
`n = 3`, yet the call does not return the input tour — Python raises
`ZeroDivisionError` (modelled as `none`). -/
theorem rotate_groups_zero_cex :
    local_search_rotate_groups [0, 1, 2] (fun _ _ => 1) 0 ≠ some [0, 1, 2] := by
  decide

/-! ### Claims C7 and C4: degenerate runs and determinism -/

/-- A concrete deterministic generator used by counterexamples: shuffling is
the identity, `random()` is always `0`, `sample` always picks `(0, 1)`. -/
def trivOps : RngOps Unit :=
  ⟨fun l _ => (l, ()), fun _ => (0, ()), fun _ _ => ((0, 1), ())⟩

/-- C7 (amended): a zero-iteration run of either engine completes with an
empty history and no best tour (any population size), while a
zero-population run with at least one iteration fails (Python raises
`IndexError` on `population[0]`). -/
theorem degenerate_runs {σ : Type} (ops : RngOps σ) (d : Nat → Nat → Nat)
    (n ps m : Nat) (mr lsp : ℚ) (g : Nat) (rng0 : σ) (τ : Nat) :
    ((∃ res, genetic_tsp ops d n ps 0 mr rng0 τ = some res ∧
        res.history = [] ∧ res.best_tour = none) ∧
     (∃ res, memetic_tsp ops d n ps 0 mr lsp g rng0 τ = some res ∧
        res.history = [] ∧ res.best_tour = none)) ∧
    (genetic_tsp ops d n 0 (m + 1) mr rng0 τ = none ∧
     memetic_tsp ops d n 0 (m + 1) mr lsp g rng0 τ = none) := by
  refine ⟨⟨⟨_, rfl, rfl, rfl⟩, ⟨_, rfl, rfl, rfl⟩⟩, rfl, rfl⟩

/-- Counterexample to C7 as stated: a zero-population, one-iteration run
does not complete (`population[0]` raises in Python, `none` here). -/
theorem zero_population_cex :
    genetic_tsp trivOps dsum 3 0 1 0 () 0 = none := by rfl

/-- C4 (amended): once the seeded generator is fixed, the entire result is a
function of the cost table and configuration except for the `time_ms`
field, which records the measured wall-clock duration: a run observed at
elapsed time `τ₁` equals the run observed at `τ₂` with only `time_ms`
replaced. -/
theorem seeded_determinism {σ : Type} (ops : RngOps σ) (d : Nat → Nat → Nat)
    (n ps iters : Nat) (mr lsp : ℚ) (g : Nat) (rng0 : σ) (τ₁ τ₂ : Nat) :
    genetic_tsp ops d n ps iters mr rng0 τ₁ =
      (genetic_tsp ops d n ps iters mr rng0 τ₂).map
        (fun r => { r with time_ms := τ₁ }) ∧
    memetic_tsp ops d n ps iters mr lsp g rng0 τ₁ =
      (memetic_tsp ops d n ps iters mr lsp g rng0 τ₂).map
        (fun r => { r with time_ms := τ₁ }) := by
  have hmap : ∀ (X : Option (GenState σ)),
      X.map (mkResult τ₁) = (X.map (mkResult τ₂)).map
        (fun r => { r with time_ms := τ₁ }) := by
    intro X
    cases X with
    | none => rfl
    | some s => rfl
  exact ⟨hmap _, hmap _⟩

/-- Counterexample to C4 as stated: identical cost table, configuration and
seed, but the two runs' wall-clock measurements differ, so the returned
records differ (in `time_ms`). -/
theorem time_field_cex :
    genetic_tsp trivOps dsum 2 1 0 0 () 0 ≠ genetic_tsp trivOps dsum 2 1 0 0 () 1 := by
  decide

/-! ### Claim C6: the memetic loop vs the configurable orchestrator -/

theorem gaStep_eq_genStepWith {σ : Type} (ops : RngOps σ) (d : Nat → Nat → Nat)
    (n ps : Nat) (mr : ℚ) (s : GenState σ) :
    gaStep ops d n ps mr s = genStepWith ops d n ps mr none s := by
  unfold gaStep genStepWith
  cases sortPop d s.population with
  | nil => rfl
  | cons a rest => rfl

theorem maStep_eq_genStepWith {σ : Type} (ops : RngOps σ) (d : Nat → Nat → Nat)
    (n ps : Nat) (mr lsp : ℚ) (g : Nat) (s : GenState σ) :
    maStep ops d n ps mr lsp g s =
      genStepWith ops d n ps mr (some (lsp, LSChoice.rotate g)) s := by
  unfold maStep genStepWith
  cases sortPop d s.population with
  | nil => rfl
  | cons a rest => rfl

theorem stepIter_congr {α : Type} (f f' : α → Option α) (h : ∀ s, f s = f' s) :
    ∀ (k : Nat) (s : α), stepIter f k s = stepIter f' k s := by
  intro k
  induction k with
  | zero => intro s; rfl
  | succ m ih =>
    intro s
    show (match f s with | none => none | some s' => stepIter f m s') =
      (match f' s with | none => none | some s' => stepIter f' m s')
    rw [h s]
    cases f' s with
    | none => rfl
    | some s' => exact ih s'

/-- C6 (amended): `memetic_tsp` runs exactly the §4.5 orchestrator loop —
the `genetic_tsp` loop with the local-search step inserted between
crossover and mutation — but always instantiated at group rotation with the
fixed group count `groups_for_ls`; no other operator is selectable. -/
theorem memetic_loop_structure {σ : Type} (ops : RngOps σ)
    (d : Nat → Nat → Nat) (n ps iters : Nat) (mr lsp : ℚ) (g : Nat)
    (rng0 : σ) (τ : Nat) :
    memetic_tsp ops d n ps iters mr lsp g rng0 τ =
      genRunWith ops d n ps iters mr (some (lsp, LSChoice.rotate g)) rng0 τ ∧
    genetic_tsp ops d n ps iters mr rng0 τ =
      genRunWith ops d n ps iters mr none rng0 τ := by
  constructor
  · exact congrArg (Option.map (mkResult τ))
      (stepIter_congr (maStep ops d n ps mr lsp g)
        (genStepWith ops d n ps mr (some (lsp, LSChoice.rotate g)))
        (maStep_eq_genStepWith ops d n ps mr lsp g) iters _)
  · exact congrArg (Option.map (mkResult τ))
      (stepIter_congr (gaStep ops d n ps mr)
        (genStepWith ops d n ps mr none)
        (gaStep_eq_genStepWith ops d n ps mr) iters _)

/-- An asymmetric 4-vertex cost table on which group rotation improves the
identity tour while the 2-opt scan finds no improving move. -/
def dC6 : Nat → Nat → Nat := fun a b =>
  if a = 0 ∧ b = 1 then 5 else if a = 1 ∧ b = 0 then 0
  else if a = 0 ∧ b = 2 then 0 else if a = 2 ∧ b = 0 then 5
  else if a = 0 ∧ b = 3 then 5 else if a = 3 ∧ b = 0 then 5
  else if a = 1 ∧ b = 2 then 5 else if a = 2 ∧ b = 1 then 5
  else if a = 1 ∧ b = 3 then 9 else if a = 3 ∧ b = 1 then 0
  else if a = 2 ∧ b = 3 then 1 else if a = 3 ∧ b = 2 then 1
  else 0

/-- The loop state the C6 counterexample starts from. -/
def stateC6 : GenState Unit := ⟨[[0, 1, 2, 3], [0, 1, 2, 3]], none, ⊤, [], 0, 0, ()⟩

theorem two_opt_go_dC6 : two_opt_go dC6 [0, 1, 2, 3] = [0, 1, 2, 3] := by
  rw [two_opt_go]
  show (if _ : (two_opt_pass dC6 [0, 1, 2, 3]).2 = true ∧
      tour_length (two_opt_pass dC6 [0, 1, 2, 3]).1 dC6 <
        tour_length [0, 1, 2, 3] dC6 then
      two_opt_go dC6 (two_opt_pass dC6 [0, 1, 2, 3]).1
    else (two_opt_pass dC6 [0, 1, 2, 3]).1) = [0, 1, 2, 3]
  rw [dif_neg (by decide)]
  decide

/-! ### Claims C5 and C9: run invariants -/

theorem sortPop_perm (d : Nat → Nat → Nat) (pop : List (List Nat)) :
    (sortPop d pop).Perm pop := List.perm_insertionSort _ pop

theorem sortPop_eq_nil_iff (d : Nat → Nat → Nat) (pop : List (List Nat)) :
    sortPop d pop = [] ↔ pop = [] := by
  constructor
  · intro h
    have hp := sortPop_perm d pop
    rw [h] at hp
    exact (hp.symm).eq_nil
  · intro h
    subst h
    rfl

theorem sortPop_sorted (d : Nat → Nat → Nat) (pop : List (List Nat)) :
    (sortPop d pop).Pairwise (fun a b => tour_length a d ≤ tour_length b d) := by
  haveI : IsTotal (List Nat) (fun a b => tour_length a d ≤ tour_length b d) :=
    ⟨fun a b => Nat.le_total _ _⟩
  haveI : IsTrans (List Nat) (fun a b => tour_length a d ≤ tour_length b d) :=
    ⟨fun a b c hab hbc => Nat.le_trans hab hbc⟩
  exact List.sorted_insertionSort _ pop

/-- The value a generation records: the cost of the sorted population's
best individual (`⊤` for an empty population). -/
def recordVal (d : Nat → Nat → Nat) (pop : List (List Nat)) : WithTop Nat :=
  match sortPop d pop with
  | [] => ⊤
  | t :: _ => (tour_length t d : WithTop Nat)

theorem recordVal_le_mem (d : Nat → Nat → Nat) (pop : List (List Nat))
    (t : List Nat) (ht : t ∈ pop) :
    recordVal d pop ≤ (tour_length t d : WithTop Nat) := by
  have hmem : t ∈ sortPop d pop := (sortPop_perm d pop).mem_iff.mpr ht
  have hsorted := sortPop_sorted d pop
  cases hsort : sortPop d pop with
  | nil => rw [hsort] at hmem; cases hmem
  | cons c rest =>
    rw [hsort] at hmem hsorted
    have hval : recordVal d pop = (tour_length c d : WithTop Nat) := by
      unfold recordVal
      rw [hsort]
    rw [hval]
    rcases List.mem_cons.mp hmem with h | h
    · subst h; exact le_refl _
    · have := (List.pairwise_cons.mp hsorted).1 t h
      exact_mod_cast this

theorem min_if_lt (x b : WithTop Nat) :
    (if x < b then x else b) = min b x := by
  by_cases h : x < b
  · rw [if_pos h, min_eq_right (le_of_lt h)]
  · rw [if_neg h, min_eq_left (le_of_not_lt h)]

theorem genStepWith_eq_core {σ : Type} (ops : RngOps σ) (d : Nat → Nat → Nat)
    (n ps : Nat) (mr : ℚ) (ls : Option (ℚ × LSChoice)) (s : GenState σ)
    (c : List Nat) (rest : List (List Nat))
    (hsort : sortPop d s.population = c :: rest) :
    genStepWith ops d n ps mr ls s = genStepCore ops d n ps mr ls s c rest := by
  unfold genStepWith
  rw [hsort]

theorem lsApply_nil {σ : Type} (ops : RngOps σ) (d : Nat → Nat → Nat)
    (ls : Option (ℚ × LSChoice)) (g : σ) :
    lsApply ops d ls [] g = some ([], g) := by
  cases ls with
  | none => rfl
  | some pc => rfl

/-- Structure of one successful orchestrator generation: the recorded entry
and the new best cost are `min` of the old best and the sorted-best cost,
and the new population's sorted-best cost does not rise (or the population
became empty, which makes any further generation fail). -/
theorem genStepWith_spec {σ : Type} (ops : RngOps σ) (d : Nat → Nat → Nat)
    (n ps : Nat) (mr : ℚ) (ls : Option (ℚ × LSChoice)) (s s' : GenState σ)
    (h : genStepWith ops d n ps mr ls s = some s') :
    s'.history = s.history ++ [min s.best_cost (recordVal d s.population)] ∧
    s'.best_cost = min s.best_cost (recordVal d s.population) ∧
    (recordVal d s'.population ≤ recordVal d s.population ∨
      s'.population = []) ∧
    s.population ≠ [] := by
  obtain ⟨c, rest, hsort⟩ : ∃ c rest, sortPop d s.population = c :: rest := by
    cases hs : sortPop d s.population with
    | nil =>
      unfold genStepWith at h
      rw [hs] at h
      exact absurd h (by simp)
    | cons c rest => exact ⟨c, rest, rfl⟩
  have hpop : s.population ≠ [] := by
    intro hnil
    rw [(sortPop_eq_nil_iff d s.population).mpr hnil] at hsort
    cases hsort
  have hrec : recordVal d s.population = (tour_length c d : WithTop Nat) := by
    unfold recordVal
    rw [hsort]
  rw [genStepWith_eq_core ops d n ps mr ls s c rest hsort] at h
  unfold genStepCore at h
  rcases hlsr : lsApply ops d ls
      (crossover_block ((c :: rest).take (ps / 2)) n s.crossover_solutions).1
      s.rng with _ | ⟨children, g1⟩
  · rw [hlsr] at h
    exact absurd h (by simp)
  · rw [hlsr] at h
    have h' : (⟨((c :: rest).take (ps / 2) ++
          (mutation_block ops n mr children s.mutation_solutions g1).1).take ps,
        (if (tour_length c d : WithTop Nat) < s.best_cost then some c
          else s.best_tour),
        (if (tour_length c d : WithTop Nat) < s.best_cost then
            (tour_length c d : WithTop Nat)
          else s.best_cost),
        s.history ++
          [if (tour_length c d : WithTop Nat) < s.best_cost then
            (tour_length c d : WithTop Nat)
          else s.best_cost],
        (crossover_block ((c :: rest).take (ps / 2)) n
            s.crossover_solutions).2,
        (mutation_block ops n mr children s.mutation_solutions g1).2.1,
        (mutation_block ops n mr children s.mutation_solutions g1).2.2⟩
        : GenState σ) = s' := Option.some.inj h
    have hhist : s'.history = s.history ++
        [if (tour_length c d : WithTop Nat) < s.best_cost then
          (tour_length c d : WithTop Nat) else s.best_cost] := by
      rw [← h']
    have hcost : s'.best_cost =
        (if (tour_length c d : WithTop Nat) < s.best_cost then
          (tour_length c d : WithTop Nat) else s.best_cost) := by
      rw [← h']
    have hpopeq : s'.population = ((c :: rest).take (ps / 2) ++
        (mutation_block ops n mr children s.mutation_solutions g1).1).take ps := by
      rw [← h']
    refine ⟨?_, ?_, ?_, hpop⟩
    · rw [hhist, hrec, min_if_lt]
    · rw [hcost, hrec, min_if_lt]
    · rcases hhalf : ps / 2 with _ | k
      · refine Or.inr ?_
        rw [hpopeq, hhalf, List.take_zero]
        rw [hhalf, List.take_zero] at hlsr
        have hcb : crossover_block ([] : List (List Nat)) n s.crossover_solutions =
            ([], s.crossover_solutions) := rfl
        rw [hcb, lsApply_nil] at hlsr
        have hch : children = [] := by
          have h2 := Option.some.inj hlsr
          exact (congrArg Prod.fst h2).symm
        subst hch
        have hmb : (mutation_block ops n mr [] s.mutation_solutions g1).1 =
            ([] : List (List Nat)) := rfl
        rw [hmb, List.nil_append]
        exact List.take_nil
      · refine Or.inl ?_
        rw [hrec, hpopeq]
        apply recordVal_le_mem
        obtain ⟨m, hm⟩ : ∃ m, ps = m + 1 := ⟨ps - 1, by omega⟩
        rw [hhalf, hm, List.take_succ_cons, List.cons_append, List.take_succ_cons]
        exact List.mem_cons_self c _

theorem getD_append_lt {α : Type} (l l' : List α) (x : α) :
    ∀ i, i < l.length → (l ++ l').getD i x = l.getD i x := by
  induction l with
  | nil => intro i hi; simp at hi
  | cons a t ih =>
    intro i hi
    cases i with
    | zero => rfl
    | succ j =>
      have hj : j < t.length := by simpa using hi
      simp only [List.cons_append, List.getD_cons_succ]
      exact ih j hj

theorem getD_append_len {α : Type} (l : List α) (a x : α) (l' : List α) :
    (l ++ a :: l').getD l.length x = a := by
  induction l with
  | nil => rfl
  | cons b t ih =>
    simp only [List.cons_append, List.length_cons, List.getD_cons_succ]
    exact ih

theorem stepIter_succ {α : Type} (f : α → Option α) (k : Nat) (s : α) :
    stepIter f (k + 1) s =
      (match f s with | none => none | some s' => stepIter f k s') := rfl

/-- The run invariant that makes the history non-increasing: the history is
non-increasing so far, its last entry is the current best cost, and the
best cost is at most the current population's sorted-best cost. -/
def HistInv (d : Nat → Nat → Nat) {σ : Type} (s : GenState σ) : Prop :=
  s.history.Chain' (fun a b => b ≤ a) ∧
  (s.history.getLast? = some s.best_cost ∨ (s.history = [] ∧ s.best_cost = ⊤)) ∧
  (recordVal d s.population ≤ s.best_cost ∨ s.population = [])

/-- One successful generation preserves `HistInv` and appends exactly the
sorted population's best cost to the history. -/
theorem genStepWith_histInv {σ : Type} (ops : RngOps σ) (d : Nat → Nat → Nat)
    (n ps : Nat) (mr : ℚ) (ls : Option (ℚ × LSChoice)) (s s' : GenState σ)
    (hQ : HistInv d s) (h : genStepWith ops d n ps mr ls s = some s') :
    HistInv d s' ∧ s'.history = s.history ++ [recordVal d s.population] := by
  obtain ⟨hh, hb, hrec⟩ := hQ
  obtain ⟨h1, h2, h3, hpop⟩ := genStepWith_spec ops d n ps mr ls s s' h
  have hrle : recordVal d s.population ≤ s.best_cost := by
    rcases hrec with hx | hx
    · exact hx
    · exact absurd hx hpop
  have hmin : min s.best_cost (recordVal d s.population) =
      recordVal d s.population := min_eq_right hrle
  rw [hmin] at h1 h2
  refine ⟨⟨?_, ?_, ?_⟩, h1⟩
  · rw [h1, List.chain'_append]
    refine ⟨hh, List.chain'_singleton _, ?_⟩
    intro x hx y hy
    have hy' : recordVal d s.population = y := by simpa using hy
    rw [← hy']
    rcases hb with hlast | ⟨hnil, _⟩
    · rw [hlast] at hx
      have hx' : s.best_cost = x := by simpa using hx
      rw [← hx']
      exact hrle
    · rw [hnil] at hx
      simp at hx
  · left
    rw [h1, h2, List.getLast?_concat]
  · rcases h3 with h3 | h3
    · left
      rw [h2]
      exact h3
    · right
      exact h3

/-- Full-run invariant: the final history extends the initial one by one
entry per generation, and the entry of generation `k` is the sorted-best
cost of generation `k`'s population. -/
theorem genRunWith_inv {σ : Type} (ops : RngOps σ) (d : Nat → Nat → Nat)
    (n ps : Nat) (mr : ℚ) (ls : Option (ℚ × LSChoice)) :
    ∀ (m : Nat) (s : GenState σ), HistInv d s →
    ∀ s_f, stepIter (genStepWith ops d n ps mr ls) m s = some s_f →
    HistInv d s_f ∧
    s_f.history.length = s.history.length + m ∧
    (∀ i, i < s.history.length → s_f.history.getD i ⊤ = s.history.getD i ⊤) ∧
    (∀ k, k < m → ∃ sk,
      stepIter (genStepWith ops d n ps mr ls) k s = some sk ∧
      s_f.history.getD (s.history.length + k) ⊤ = recordVal d sk.population) := by
  intro m
  induction m with
  | zero =>
    intro s hQ s_f h
    have hs : s = s_f := Option.some.inj h
    subst hs
    exact ⟨hQ, by omega, fun i _ => rfl, fun k hk => absurd hk (by omega)⟩
  | succ m ih =>
    intro s hQ s_f h
    rw [stepIter_succ] at h
    cases hstep : genStepWith ops d n ps mr ls s with
    | none => rw [hstep] at h; exact absurd h (by simp)
    | some s₁ =>
      rw [hstep] at h
      obtain ⟨hQ₁, happ⟩ := genStepWith_histInv ops d n ps mr ls s s₁ hQ hstep
      obtain ⟨hQf, hlen, hpre, hrec⟩ := ih s₁ hQ₁ s_f h
      have hlen1 : s₁.history.length = s.history.length + 1 := by
        rw [happ, List.length_append]
        rfl
      refine ⟨hQf, by omega, ?_, ?_⟩
      · intro i hi
        rw [hpre i (by omega), happ, getD_append_lt]
        exact hi
      · intro k hk
        cases k with
        | zero =>
          refine ⟨s, rfl, ?_⟩
          rw [Nat.add_zero, hpre s.history.length (by omega), happ,
            getD_append_len]
        | succ k' =>
          obtain ⟨sk, hsk, hval⟩ := hrec k' (by omega)
          refine ⟨sk, ?_, ?_⟩
          · rw [stepIter_succ, hstep]
            exact hsk
          · rw [show s.history.length + (k' + 1) = s₁.history.length + k' by omega]
            exact hval

/-- The state both engines start from after population initialization. -/
def initState {σ : Type} (ops : RngOps σ) (n ps : Nat) (rng0 : σ) :
    GenState σ :=
  ⟨(init_population ops n ps rng0).1, none, ⊤, [], 0, 0,
    (init_population ops n ps rng0).2⟩

theorem initState_histInv {σ : Type} (ops : RngOps σ) (d : Nat → Nat → Nat)
    (n ps : Nat) (rng0 : σ) : HistInv d (initState ops n ps rng0) :=
  ⟨List.chain'_nil, Or.inr ⟨rfl, rfl⟩, Or.inl le_top⟩

/-- Counterexample to C6 as stated: at a concrete state, the generation step
of `memetic_tsp` differs from the spec's orchestrator step configured with
the 2-opt operator (it always applies group rotation): the operator is not
selected by any configuration. -/
theorem memetic_operator_fixed_cex :
    maStep trivOps dC6 4 2 0 1 2 stateC6 ≠
      genStepWith trivOps dC6 4 2 0 (some (1, LSChoice.twoOpt)) stateC6 := by
  have h2 : genStepWith trivOps dC6 4 2 0 (some (1, LSChoice.twoOpt)) stateC6 =
      some ⟨[[0, 1, 2, 3], two_opt_go dC6 [0, 1, 2, 3]], some [0, 1, 2, 3],
        (16 : WithTop Nat), [(16 : WithTop Nat)], 2, 0, ()⟩ := rfl
  rw [two_opt_go_dC6] at h2
  rw [h2]
  decide

theorem getD_mem {α : Type} (l : List α) (i : Nat) (x : α) (h : i < l.length) :
    l.getD i x ∈ l := by
  rw [List.getD_eq_getElem?_getD, List.getElem?_eq_getElem h]
  exact List.getElem_mem h

/-- All crossover offspring are permutations of `[0,n)` when the parents
are. -/
theorem crossover_block_perm (n : Nat) (parents : List (List Nat)) (cs : Nat)
    (hpar : ∀ p ∈ parents, p.Perm (List.range n)) :
    ∀ ch ∈ (crossover_block parents n cs).1, ch.Perm (List.range n) := by
  unfold crossover_block
  refine foldl_rec
    (fun acc : List (List Nat) × Nat => ∀ ch ∈ acc.1, ch.Perm (List.range n))
    (crossover_step parents n) (List.range' 0 ((parents.length + 1) / 2) 2)
    ([], cs) ?_ ?_
  · intro ch hch
    simp at hch
  · intro acc i hacc hmem ch hch
    have hi : i < parents.length := by
      rw [List.mem_range'] at hmem
      obtain ⟨m, hm, he⟩ := hmem
      omega
    have hL : 0 < parents.length := by omega
    have hp1 : parents.getD i [] ∈ parents := getD_mem parents i [] hi
    have hp2 : parents.getD ((i + 1) % parents.length) [] ∈ parents :=
      getD_mem parents _ [] (Nat.mod_lt _ hL)
    have hc1 : ((crossover_one_point (parents.getD i [])
        (parents.getD ((i + 1) % parents.length) []) (n / 2)).1).Perm
        (List.range n) :=
      crossover_half_perm _ _ _ _ (hpar _ hp1) (hpar _ hp2) (List.nodup_range n)
    have hc2 : ((crossover_one_point (parents.getD i [])
        (parents.getD ((i + 1) % parents.length) []) (n / 2)).2).Perm
        (List.range n) := by
      rw [crossover_snd_eq]
      exact crossover_half_perm _ _ _ _ (hpar _ hp2) (hpar _ hp1)
        (List.nodup_range n)
    have hch' : ch ∈ acc.1 ++ [(crossover_one_point (parents.getD i [])
        (parents.getD ((i + 1) % parents.length) []) (n / 2)).1,
        (crossover_one_point (parents.getD i [])
        (parents.getD ((i + 1) % parents.length) []) (n / 2)).2] := hch
    rcases List.mem_append.mp hch' with hx | hx
    · exact hacc ch hx
    · rcases List.mem_cons.mp hx with hx1 | hx2
      · rw [hx1]; exact hc1
      · rcases List.mem_cons.mp hx2 with hx3 | hx4
        · rw [hx3]; exact hc2
        · cases hx4

/-- Every local-search operator dispatched by `applyLS` preserves the
permutation invariant (symmetric cost table for the 2-opt case). -/
theorem applyLS_perm (d : Nat → Nat → Nat) (hsym : ∀ a b, d a b = d b a)
    (n : Nat) (ch : LSChoice) (t t' : List Nat)
    (ht : t.Perm (List.range n)) (h : applyLS d ch t = some t') :
    t'.Perm (List.range n) := by
  cases ch with
  | rotate g => exact ((rotate_groups_spec t d g t' h).1).trans ht
  | rotateIter g => exact ((ls_rotate_iter_go_spec d g t t' h).1).trans ht
  | rotateDyn gs => exact ((ls_rotate_dyn_go_spec d gs t t' h).1).trans ht
  | twoOpt =>
    have h' : local_search_2opt t d = t' := Option.some.inj h
    rw [← h']
    exact ((two_opt_go_spec d hsym t).1).trans ht

/-- The offspring local-search pass preserves the permutation invariant. -/
theorem ls_block_perm {σ : Type} (ops : RngOps σ) (n : Nat) (p : ℚ)
    (f : List Nat → Option (List Nat))
    (hf : ∀ t t', t.Perm (List.range n) → f t = some t' →
      t'.Perm (List.range n))
    (children : List (List Nat))
    (hch : ∀ c ∈ children, c.Perm (List.range n)) (g0 : σ)
    (out : List (List Nat)) (gout : σ)
    (h : ls_block ops p f children g0 = some (out, gout)) :
    ∀ c ∈ out, c.Perm (List.range n) := by
  unfold ls_block at h
  have hfold := foldl_rec (fun acc : Option (List (List Nat) × σ) =>
      ∀ l g, acc = some (l, g) → ∀ c ∈ l, c.Perm (List.range n))
    (ls_step ops p f) children (some ([], g0)) ?_ ?_
  · exact hfold out gout h
  · intro l g hl c hc
    have h1 : (([], g0) : List (List Nat) × σ) = (l, g) := Option.some.inj hl
    have h2 : l = [] := (congrArg Prod.fst h1).symm
    rw [h2] at hc
    cases hc
  · intro acc child hacc hmem l g hl c hc
    cases acc with
    | none =>
      rw [show ls_step ops p f none child = none from rfl] at hl
      cases hl
    | some pair =>
      obtain ⟨l0, g1⟩ := pair
      by_cases hr : (ops.rand g1).1 < p
      · cases hfc : f child with
        | none =>
          rw [show ls_step ops p f (some (l0, g1)) child =
            (match f child with
             | none => none
             | some c' => some (l0 ++ [c'], (ops.rand g1).2)) from by
              show (if (ops.rand g1).1 < p then
                  match f child with
                  | none => none
                  | some c' => some (l0 ++ [c'], (ops.rand g1).2)
                else some (l0 ++ [child], (ops.rand g1).2)) = _
              rw [if_pos hr], hfc] at hl
          cases hl
        | some c' =>
          rw [show ls_step ops p f (some (l0, g1)) child =
            (match f child with
             | none => none
             | some c' => some (l0 ++ [c'], (ops.rand g1).2)) from by
              show (if (ops.rand g1).1 < p then
                  match f child with
                  | none => none
                  | some c' => some (l0 ++ [c'], (ops.rand g1).2)
                else some (l0 ++ [child], (ops.rand g1).2)) = _
              rw [if_pos hr], hfc] at hl
          have h1 := Option.some.inj hl
          have h2 : l = l0 ++ [c'] := (congrArg Prod.fst h1).symm
          rw [h2] at hc
          rcases List.mem_append.mp hc with hx | hx
          · exact hacc l0 g1 rfl c hx
          · have hx' : c = c' := by simpa using hx
            rw [hx']
            exact hf child c' (hch child hmem) hfc
      · rw [show ls_step ops p f (some (l0, g1)) child =
          some (l0 ++ [child], (ops.rand g1).2) from by
            show (if (ops.rand g1).1 < p then
                match f child with
                | none => none
                | some c' => some (l0 ++ [c'], (ops.rand g1).2)
              else some (l0 ++ [child], (ops.rand g1).2)) = _
            rw [if_neg hr]] at hl
        have h1 := Option.some.inj hl
        have h2 : l = l0 ++ [child] := (congrArg Prod.fst h1).symm
        rw [h2] at hc
        rcases List.mem_append.mp hc with hx | hx
        · exact hacc l0 g1 rfl c hx
        · have hx' : c = child := by simpa using hx
          rw [hx']
          exact hch child hmem

/-- The spec-level optional local-search pass preserves the permutation
invariant. -/
theorem lsApply_perm {σ : Type} (ops : RngOps σ) (d : Nat → Nat → Nat)
    (hsym : ∀ a b, d a b = d b a) (n : Nat) (ls : Option (ℚ × LSChoice))
    (children : List (List Nat))
    (hch : ∀ c ∈ children, c.Perm (List.range n)) (g : σ)
    (out : List (List Nat)) (gout : σ)
    (h : lsApply ops d ls children g = some (out, gout)) :
    ∀ c ∈ out, c.Perm (List.range n) := by
  cases ls with
  | none =>
    have h1 := Option.some.inj h
    have h2 : out = children := (congrArg Prod.fst h1).symm
    rw [h2]
    exact hch
  | some pc =>
    exact ls_block_perm ops n pc.1 (applyLS d pc.2)
      (fun t t' ht hf => applyLS_perm d hsym n pc.2 t t' ht hf)
      children hch g out gout h

/-- Mutation preserves the permutation invariant when the sampled
positions are in range. -/
theorem mutation_block_perm {σ : Type} (ops : RngOps σ) (n : Nat)
    (hsamp : ∀ g : σ, (ops.sample2 n g).1.1 < n ∧ (ops.sample2 n g).1.2 < n)
    (mr : ℚ) (children : List (List Nat))
    (hch : ∀ c ∈ children, c.Perm (List.range n)) (ms : Nat) (g0 : σ) :
    ∀ c ∈ (mutation_block ops n mr children ms g0).1,
      c.Perm (List.range n) := by
  unfold mutation_block
  refine foldl_rec (fun acc : List (List Nat) × Nat × σ =>
      ∀ c ∈ acc.1, c.Perm (List.range n))
    (mutation_step ops n mr) children ([], ms, g0) ?_ ?_
  · intro c hc
    cases hc
  · intro acc child hacc hmem c hc
    have hcp : child.Perm (List.range n) := hch child hmem
    have hlen : child.length = n := by simpa using hcp.length_eq
    by_cases hr : (ops.rand acc.2.2).1 < mr
    · have hstep : mutation_step ops n mr acc child =
          (acc.1 ++ [mutate_swap child
            (ops.sample2 n (ops.rand acc.2.2).2).1.1
            (ops.sample2 n (ops.rand acc.2.2).2).1.2],
           acc.2.1 + 1, (ops.sample2 n (ops.rand acc.2.2).2).2) := by
        unfold mutation_step
        rw [if_pos hr]
      rw [hstep] at hc
      rcases List.mem_append.mp hc with hx | hx
      · exact hacc c hx
      · have hx' : c = mutate_swap child
            (ops.sample2 n (ops.rand acc.2.2).2).1.1
            (ops.sample2 n (ops.rand acc.2.2).2).1.2 := by simpa using hx
        rw [hx']
        exact (mutate_swap_perm child _ _
          (by rw [hlen]; exact (hsamp _).1)
          (by rw [hlen]; exact (hsamp _).2)).trans hcp
    · have hstep : mutation_step ops n mr acc child =
          (acc.1 ++ [child], acc.2.1, (ops.rand acc.2.2).2) := by
        unfold mutation_step
        rw [if_neg hr]
      rw [hstep] at hc
      rcases List.mem_append.mp hc with hx | hx
      · exact hacc c hx
      · have hx' : c = child := by simpa using hx
        rw [hx']
        exact hcp

/-- All initial individuals are permutations of `[0,n)` (the shuffle
contract of `random.shuffle`). -/
theorem init_population_perm {σ : Type} (ops : RngOps σ)
    (hshuf : ∀ l g, ((ops.shuffle l g).1).Perm l) (n ps : Nat) (g0 : σ) :
    ∀ p ∈ (init_population ops n ps g0).1, p.Perm (List.range n) := by
  unfold init_population
  refine foldl_rec (fun acc : List (List Nat) × σ =>
      ∀ p ∈ acc.1, p.Perm (List.range n))
    (init_step ops n) (List.range ps) ([], g0) ?_ ?_
  · intro p hp
    cases hp
  · intro acc j hacc _ p hp
    have hp' : p ∈ acc.1 ++ [(ops.shuffle (List.range n) acc.2).1] := hp
    rcases List.mem_append.mp hp' with hx | hx
    · exact hacc p hx
    · have hx' : p = (ops.shuffle (List.range n) acc.2).1 := by simpa using hx
      rw [hx']
      exact hshuf (List.range n) acc.2

/-- The permutation/consistency invariant of a run state. -/
def PermInv (n : Nat) (d : Nat → Nat → Nat) {σ : Type} (s : GenState σ) :
    Prop :=
  (∀ p ∈ s.population, p.Perm (List.range n)) ∧
  ((s.best_tour = none ∧ s.best_cost = ⊤) ∨
    ∃ t, s.best_tour = some t ∧
      s.best_cost = (tour_length t d : WithTop Nat) ∧ t.Perm (List.range n))

/-- One successful orchestrator generation preserves the permutation
invariant and leaves a best tour consistent with the best cost. -/
theorem genStepWith_permInv {σ : Type} (ops : RngOps σ) (d : Nat → Nat → Nat)
    (hsym : ∀ a b, d a b = d b a) (n ps : Nat) (mr : ℚ)
    (ls : Option (ℚ × LSChoice))
    (hsamp : ∀ g : σ, (ops.sample2 n g).1.1 < n ∧ (ops.sample2 n g).1.2 < n)
    (s s' : GenState σ) (hR : PermInv n d s)
    (h : genStepWith ops d n ps mr ls s = some s') :
    PermInv n d s' ∧ ∃ t, s'.best_tour = some t ∧
      s'.best_cost = (tour_length t d : WithTop Nat) ∧
      t.Perm (List.range n) := by
  obtain ⟨c, rest, hsort⟩ : ∃ c rest, sortPop d s.population = c :: rest := by
    cases hs : sortPop d s.population with
    | nil =>
      unfold genStepWith at h
      rw [hs] at h
      exact absurd h (by simp)
    | cons c rest => exact ⟨c, rest, rfl⟩
  rw [genStepWith_eq_core ops d n ps mr ls s c rest hsort] at h
  unfold genStepCore at h
  rcases hlsr : lsApply ops d ls
      (crossover_block ((c :: rest).take (ps / 2)) n s.crossover_solutions).1
      s.rng with _ | ⟨children, g1⟩
  · rw [hlsr] at h
    exact absurd h (by simp)
  · rw [hlsr] at h
    have h' : (⟨((c :: rest).take (ps / 2) ++
          (mutation_block ops n mr children s.mutation_solutions g1).1).take ps,
        (if (tour_length c d : WithTop Nat) < s.best_cost then some c
          else s.best_tour),
        (if (tour_length c d : WithTop Nat) < s.best_cost then
            (tour_length c d : WithTop Nat)
          else s.best_cost),
        s.history ++
          [if (tour_length c d : WithTop Nat) < s.best_cost then
            (tour_length c d : WithTop Nat)
          else s.best_cost],
        (crossover_block ((c :: rest).take (ps / 2)) n
            s.crossover_solutions).2,
        (mutation_block ops n mr children s.mutation_solutions g1).2.1,
        (mutation_block ops n mr children s.mutation_solutions g1).2.2⟩
        : GenState σ) = s' := Option.some.inj h
    have hpopeq : s'.population = ((c :: rest).take (ps / 2) ++
        (mutation_block ops n mr children s.mutation_solutions g1).1).take ps := by
      rw [← h']
    have hbt : s'.best_tour =
        (if (tour_length c d : WithTop Nat) < s.best_cost then some c
         else s.best_tour) := by
      rw [← h']
    have hbc : s'.best_cost =
        (if (tour_length c d : WithTop Nat) < s.best_cost then
          (tour_length c d : WithTop Nat) else s.best_cost) := by
      rw [← h']
    have hsortmem : ∀ p ∈ (c :: rest), p.Perm (List.range n) := by
      intro p hp
      apply hR.1
      exact (sortPop_perm d s.population).mem_iff.mp (hsort ▸ hp)
    have hcperm : c.Perm (List.range n) := hsortmem c (List.mem_cons_self c rest)
    have hparents : ∀ p ∈ (c :: rest).take (ps / 2), p.Perm (List.range n) :=
      fun p hp => hsortmem p (List.mem_of_mem_take hp)
    have hchildren : ∀ x ∈ children, x.Perm (List.range n) :=
      lsApply_perm ops d hsym n ls _
        (crossover_block_perm n _ _ hparents) s.rng children g1 hlsr
    have hmut : ∀ x ∈ (mutation_block ops n mr children
        s.mutation_solutions g1).1, x.Perm (List.range n) :=
      mutation_block_perm ops n hsamp mr children hchildren
        s.mutation_solutions g1
    have hpop' : ∀ p ∈ s'.population, p.Perm (List.range n) := by
      intro p hp
      rw [hpopeq] at hp
      have hp2 := List.mem_of_mem_take hp
      rcases List.mem_append.mp hp2 with hx | hx
      · exact hparents p hx
      · exact hmut p hx
    by_cases hcc : (tour_length c d : WithTop Nat) < s.best_cost
    · rw [if_pos hcc] at hbt hbc
      exact ⟨⟨hpop', Or.inr ⟨c, hbt, hbc, hcperm⟩⟩, c, hbt, hbc, hcperm⟩
    · rw [if_neg hcc] at hbt hbc
      rcases hR.2 with ⟨hbn, hbtop⟩ | ⟨t, ht1, ht2, ht3⟩
      · exfalso
        rw [hbtop] at hcc
        exact hcc (WithTop.coe_lt_top _)
      · have hbt' : s'.best_tour = some t := by rw [hbt]; exact ht1
        have hbc' : s'.best_cost = (tour_length t d : WithTop Nat) := by
          rw [hbc]; exact ht2
        exact ⟨⟨hpop', Or.inr ⟨t, hbt', hbc', ht3⟩⟩, t, hbt', hbc', ht3⟩

/-- Full-run permutation invariant: after at least one generation the best
tour exists, matches the best cost, and is a permutation. -/
theorem genRunWith_permInv {σ : Type} (ops : RngOps σ) (d : Nat → Nat → Nat)
    (hsym : ∀ a b, d a b = d b a) (n ps : Nat) (mr : ℚ)
    (ls : Option (ℚ × LSChoice))
    (hsamp : ∀ g : σ, (ops.sample2 n g).1.1 < n ∧ (ops.sample2 n g).1.2 < n) :
    ∀ (m : Nat) (s : GenState σ), PermInv n d s →
    ∀ s_f, stepIter (genStepWith ops d n ps mr ls) m s = some s_f →
    PermInv n d s_f ∧ (1 ≤ m → ∃ t, s_f.best_tour = some t ∧
      s_f.best_cost = (tour_length t d : WithTop Nat) ∧
      t.Perm (List.range n)) := by
  intro m
  induction m with
  | zero =>
    intro s hR s_f h
    have hs : s = s_f := Option.some.inj h
    subst hs
    exact ⟨hR, fun h1 => absurd h1 (by omega)⟩
  | succ m ih =>
    intro s hR s_f h
    rw [stepIter_succ] at h
    cases hstep : genStepWith ops d n ps mr ls s with
    | none => rw [hstep] at h; exact absurd h (by simp)
    | some s₁ =>
      rw [hstep] at h
      obtain ⟨hR₁, hbest₁⟩ :=
        genStepWith_permInv ops d hsym n ps mr ls hsamp s s₁ hR hstep
      obtain ⟨hRf, hbf⟩ := ih s₁ hR₁ s_f h
      refine ⟨hRf, fun _ => ?_⟩
      cases m with
      | zero =>
        have hss : s₁ = s_f := Option.some.inj h
        subst hss
        exact hbest₁
      | succ m' => exact hbf (by omega)

/-- C9: every `SearchResult` returned by a GA/MA run with at least one
generation is internally consistent: the best tour exists, its recorded
cost is its cycle cost, and it is a permutation of `[0,n)`. -/
theorem result_consistent {σ : Type} (ops : RngOps σ) (d : Nat → Nat → Nat)
    (hsym : ∀ a b, d a b = d b a) (n ps iters : Nat) (hn : 2 ≤ n)
    (hps : 1 ≤ ps) (hit : 1 ≤ iters) (mr lsp : ℚ) (g : Nat) (rng0 : σ)
    (τ : Nat) (hshuf : ∀ l gg, ((ops.shuffle l gg).1).Perm l)
    (hsamp : ∀ gg : σ,
      (ops.sample2 n gg).1.1 < n ∧ (ops.sample2 n gg).1.2 < n) :
    (∀ res, genetic_tsp ops d n ps iters mr rng0 τ = some res →
      ∃ t, res.best_tour = some t ∧
        res.best_cost = (tour_length t d : WithTop Nat) ∧
        t.Perm (List.range n)) ∧
    (∀ res, memetic_tsp ops d n ps iters mr lsp g rng0 τ = some res →
      ∃ t, res.best_tour = some t ∧
        res.best_cost = (tour_length t d : WithTop Nat) ∧
        t.Perm (List.range n)) := by
  have hinit : PermInv n d (initState ops n ps rng0) :=
    ⟨init_population_perm ops hshuf n ps rng0, Or.inl ⟨rfl, rfl⟩⟩
  constructor
  · intro res hres
    have hres' : (stepIter (genStepWith ops d n ps mr none) iters
        (initState ops n ps rng0)).map (mkResult τ) = some res := by
      rw [← stepIter_congr (gaStep ops d n ps mr)
        (genStepWith ops d n ps mr none)
        (gaStep_eq_genStepWith ops d n ps mr) iters]
      exact hres
    obtain ⟨s_f, hsf, hmk⟩ := Option.map_eq_some'.mp hres'
    obtain ⟨_, hbest⟩ := genRunWith_permInv ops d hsym n ps mr none hsamp
      iters _ hinit s_f hsf
    obtain ⟨t, h1, h2, h3⟩ := hbest hit
    subst hmk
    exact ⟨t, h1, h2, h3⟩
  · intro res hres
    have hres' : (stepIter (genStepWith ops d n ps mr
        (some (lsp, LSChoice.rotate g))) iters
        (initState ops n ps rng0)).map (mkResult τ) = some res := by
      rw [← stepIter_congr (maStep ops d n ps mr lsp g)
        (genStepWith ops d n ps mr (some (lsp, LSChoice.rotate g)))
        (maStep_eq_genStepWith ops d n ps mr lsp g) iters]
      exact hres
    obtain ⟨s_f, hsf, hmk⟩ := Option.map_eq_some'.mp hres'
    obtain ⟨_, hbest⟩ := genRunWith_permInv ops d hsym n ps mr
      (some (lsp, LSChoice.rotate g)) hsamp iters _ hinit s_f hsf
    obtain ⟨t, h1, h2, h3⟩ := hbest hit
    subst hmk
    exact ⟨t, h1, h2, h3⟩

/-- Witness for C9 at a concrete completing configuration. -/
theorem result_consistent_witness :
    ((∀ a b, dsum a b = dsum b a) ∧ 2 ≤ 2 ∧ 1 ≤ 2 ∧ 1 ≤ 1) ∧
    ((∀ res, genetic_tsp trivOps dsum 2 2 1 0 () 0 = some res →
      ∃ t, res.best_tour = some t ∧
        res.best_cost = (tour_length t dsum : WithTop Nat) ∧
        t.Perm (List.range 2)) ∧
     (∀ res, memetic_tsp trivOps dsum 2 2 1 0 0 3 () 0 = some res →
      ∃ t, res.best_tour = some t ∧
        res.best_cost = (tour_length t dsum : WithTop Nat) ∧
        t.Perm (List.range 2))) :=
  ⟨⟨fun a b => Nat.add_comm a b, by decide, by decide, by decide⟩,
    result_consistent trivOps dsum (fun a b => Nat.add_comm a b) 2 2 1
      (by decide) (by decide) (by decide) 0 0 3 () 0
      (fun l gg => List.Perm.refl l)
      (fun gg => ⟨Nat.zero_lt_two, Nat.one_lt_two⟩)⟩

/-- C5: in every completing GA/MA run, each generation appends the cost of
the sorted population's best individual to the history (one entry per
generation), and the recorded history is non-increasing. -/
theorem history_monotone_records {σ : Type} (ops : RngOps σ)
    (d : Nat → Nat → Nat) (n ps iters : Nat) (mr lsp : ℚ) (g : Nat)
    (rng0 : σ) (τ : Nat) :
    (∀ res, genetic_tsp ops d n ps iters mr rng0 τ = some res →
      res.history.Chain' (fun a b => b ≤ a) ∧
      res.history.length = iters ∧
      ∀ k, k < iters → ∃ sk,
        stepIter (gaStep ops d n ps mr) k (initState ops n ps rng0) = some sk ∧
        res.history.getD k ⊤ = recordVal d sk.population) ∧
    (∀ res, memetic_tsp ops d n ps iters mr lsp g rng0 τ = some res →
      res.history.Chain' (fun a b => b ≤ a) ∧
      res.history.length = iters ∧
      ∀ k, k < iters → ∃ sk,
        stepIter (maStep ops d n ps mr lsp g) k (initState ops n ps rng0) =
          some sk ∧
        res.history.getD k ⊤ = recordVal d sk.population) := by
  constructor
  · intro res hres
    have hres' : (stepIter (genStepWith ops d n ps mr none) iters
        (initState ops n ps rng0)).map (mkResult τ) = some res := by
      rw [← stepIter_congr (gaStep ops d n ps mr)
        (genStepWith ops d n ps mr none)
        (gaStep_eq_genStepWith ops d n ps mr) iters]
      exact hres
    obtain ⟨s_f, hsf, hmk⟩ := Option.map_eq_some'.mp hres'
    obtain ⟨hQf, hlen, _, hrec⟩ := genRunWith_inv ops d n ps mr none iters
      (initState ops n ps rng0) (initState_histInv ops d n ps rng0) s_f hsf
    subst hmk
    have hinit : (initState ops n ps rng0).history.length = 0 := rfl
    rw [hinit] at hlen
    refine ⟨hQf.1, by show s_f.history.length = iters; omega, ?_⟩
    intro k hk
    obtain ⟨sk, hsk, hval⟩ := hrec k hk
    rw [hinit, Nat.zero_add] at hval
    refine ⟨sk, ?_, hval⟩
    rw [stepIter_congr (gaStep ops d n ps mr)
      (genStepWith ops d n ps mr none)
      (gaStep_eq_genStepWith ops d n ps mr) k]
    exact hsk
  · intro res hres
    have hres' : (stepIter (genStepWith ops d n ps mr
        (some (lsp, LSChoice.rotate g))) iters
        (initState ops n ps rng0)).map (mkResult τ) = some res := by
      rw [← stepIter_congr (maStep ops d n ps mr lsp g)
        (genStepWith ops d n ps mr (some (lsp, LSChoice.rotate g)))
        (maStep_eq_genStepWith ops d n ps mr lsp g) iters]
      exact hres
    obtain ⟨s_f, hsf, hmk⟩ := Option.map_eq_some'.mp hres'
    obtain ⟨hQf, hlen, _, hrec⟩ := genRunWith_inv ops d n ps mr
      (some (lsp, LSChoice.rotate g)) iters
      (initState ops n ps rng0) (initState_histInv ops d n ps rng0) s_f hsf
    subst hmk
    have hinit : (initState ops n ps rng0).history.length = 0 := rfl
    rw [hinit] at hlen
    refine ⟨hQf.1, by show s_f.history.length = iters; omega, ?_⟩
    intro k hk
    obtain ⟨sk, hsk, hval⟩ := hrec k hk
    rw [hinit, Nat.zero_add] at hval
    refine ⟨sk, ?_, hval⟩
    rw [stepIter_congr (maStep ops d n ps mr lsp g)
      (genStepWith ops d n ps mr (some (lsp, LSChoice.rotate g)))
      (maStep_eq_genStepWith ops d n ps mr lsp g) k]
    exact hsk

/-- Witness for C5 at a concrete completing configuration. -/
theorem history_monotone_records_witness :
    (∃ res, genetic_tsp trivOps dsum 2 2 1 0 () 0 = some res ∧
      (res.history.Chain' (fun a b => b ≤ a) ∧
       res.history.length = 1 ∧
       ∀ k, k < 1 → ∃ sk,
         stepIter (gaStep trivOps dsum 2 2 0) k (initState trivOps 2 2 ()) =
           some sk ∧
         res.history.getD k ⊤ = recordVal dsum sk.population)) ∧
    (∃ res, memetic_tsp trivOps dsum 2 2 1 0 0 3 () 0 = some res ∧
      (res.history.Chain' (fun a b => b ≤ a) ∧
       res.history.length = 1 ∧
       ∀ k, k < 1 → ∃ sk,
         stepIter (maStep trivOps dsum 2 2 0 0 3) k (initState trivOps 2 2 ()) =
           some sk ∧
         res.history.getD k ⊤ = recordVal dsum sk.population)) :=
  ⟨⟨_, rfl, (history_monotone_records trivOps dsum 2 2 1 0 0 3 () 0).1 _ rfl⟩,
   ⟨_, rfl, (history_monotone_records trivOps dsum 2 2 1 0 0 3 () 0).2 _ rfl⟩⟩

/-! ### Claim C1: optimality of the exact solver -/

/-- Cost of completing the cycle from `last`: visit the vertices of `s` in
order and finally return to vertex `0`. -/
def closeCost (d : Nat → Nat → Nat) : Nat → List Nat → Nat
  | last, [] => d last 0
  | last, v :: s => d last v + closeCost d v s

theorem foldl_min_le_start : ∀ (l : List Nat) (a : Nat), l.foldl min a ≤ a := by
  intro l
  induction l with
  | nil => intro a; exact Nat.le_refl a
  | cons b l2 ih =>
    intro a
    exact Nat.le_trans (ih (min a b)) (Nat.min_le_left a b)

theorem foldl_min_le_mem :
    ∀ (l : List Nat) (a x : Nat), x ∈ l → l.foldl min a ≤ x := by
  intro l
  induction l with
  | nil => intro a x hx; cases hx
  | cons b l2 ih =>
    intro a x hx
    rcases List.mem_cons.mp hx with h | h
    · subst h
      exact Nat.le_trans (foldl_min_le_start l2 (min a x)) (Nat.min_le_right a x)
    · exact ih (min a b) x h

theorem minq_getD_le (l : List Nat) (x : Nat) (hx : x ∈ l) :
    l.min?.getD 0 ≤ x := by
  cases l with
  | nil => cases hx
  | cons b l2 =>
    rw [List.min?_cons']
    rcases List.mem_cons.mp hx with h | h
    · subst h
      exact foldl_min_le_start l2 x
    · exact foldl_min_le_mem l2 b x h

/-- The precomputed `min_out` really is a lower bound on every outgoing
edge cost. -/
theorem min_out_le (d : Nat → Nat → Nat) (n i j : Nat) (hj : j < n)
    (hne : j ≠ i) : min_out d n i ≤ d i j := by
  unfold min_out
  exact minq_getD_le _ (d i j)
    (List.mem_map.mpr ⟨j, List.mem_filter.mpr
      ⟨List.mem_range.mpr hj, decide_eq_true hne⟩, rfl⟩)

theorem closeCost_ge_chain (d : Nat → Nat → Nat) (n : Nat) :
    ∀ (s : List Nat) (v : Nat), v < n → v ≠ 0 → s.Nodup →
    (∀ u ∈ s, u < n ∧ u ≠ 0) → v ∉ s →
    min_out d n v + (s.map (min_out d n)).sum ≤ closeCost d v s := by
  intro s
  induction s with
  | nil =>
    intro v hv hv0 _ _ _
    have h := min_out_le d n v 0 (by omega) (Ne.symm hv0)
    simpa [closeCost] using h
  | cons w s2 ih =>
    intro v hv hv0 hnd hall hvs
    have hw : w < n ∧ w ≠ 0 := hall w (List.mem_cons_self w s2)
    have hwv : w ≠ v := fun h => hvs (h ▸ List.mem_cons_self w s2)
    have h1 : min_out d n v ≤ d v w := min_out_le d n v w hw.1 hwv
    have h2 : min_out d n w + (s2.map (min_out d n)).sum ≤ closeCost d w s2 :=
      ih w hw.1 hw.2 (List.nodup_cons.mp hnd).2
        (fun u hu => hall u (List.mem_cons_of_mem w hu))
        (List.nodup_cons.mp hnd).1
    have h3 : closeCost d v (w :: s2) = d v w + closeCost d w s2 := rfl
    have h4 : ((w :: s2).map (min_out d n)).sum
        = min_out d n w + (s2.map (min_out d n)).sum := by simp
    rw [h3, h4]
    omega

/-- Admissibility of the remaining lower bound: the summed per-vertex
minimum outgoing edges never exceed any actual completion cost. -/
theorem closeCost_ge_lb (d : Nat → Nat → Nat) (n : Nat) (s : List Nat)
    (last : Nat) (hn : 0 < n) (hnd : s.Nodup)
    (hall : ∀ u ∈ s, u < n ∧ u ≠ 0) :
    (s.map (min_out d n)).sum ≤ closeCost d last s := by
  cases s with
  | nil => exact Nat.zero_le _
  | cons v s2 =>
    have hv := hall v (List.mem_cons_self v s2)
    have h := closeCost_ge_chain d n s2 v hv.1 hv.2
      (List.nodup_cons.mp hnd).2
      (fun u hu => hall u (List.mem_cons_of_mem v hu))
      (List.nodup_cons.mp hnd).1
    have h3 : closeCost d last (v :: s2) = d last v + closeCost d v s2 := rfl
    have h4 : ((v :: s2).map (min_out d n)).sum
        = min_out d n v + (s2.map (min_out d n)).sum := by simp
    rw [h3, h4]
    omega

theorem closeCost_eq_adjSum (d : Nat → Nat → Nat) :
    ∀ (s : List Nat) (x : Nat),
    closeCost d x s = adjSum d (x :: s) + d ((x :: s).getLastD 0) 0 := by
  intro s
  induction s with
  | nil =>
    intro x
    have e2 : adjSum d [x] = 0 := rfl
    have e3 : ([x] : List Nat).getLastD 0 = x := rfl
    rw [e2, e3]
    show d x 0 = 0 + d x 0
    omega
  | cons v s2 ih =>
    intro x
    have h1 : closeCost d x (v :: s2) = d x v + closeCost d v s2 := rfl
    have h2 : adjSum d (x :: v :: s2) = d x v + adjSum d (v :: s2) := rfl
    have h3 : (x :: v :: s2).getLastD 0 = (v :: s2).getLastD 0 :=
      getLastD_cons_ne_nil x _ (by simp)
    rw [h1, ih v, h2, h3]
    omega

/-- The completion cost from vertex `0` is exactly the cyclic tour cost of
the full path `0 :: s`. -/
theorem closeCost_eq_tour_length (d : Nat → Nat → Nat) (s : List Nat) :
    closeCost d 0 s = tour_length (0 :: s) d := by
  rw [tour_length_eq_adjSum (0 :: s) d (by simp), closeCost_eq_adjSum d s 0]
  have hh : (0 :: s).headD 0 = 0 := rfl
  rw [hh]

theorem headD_mem (l : List Nat) (h : l ≠ []) : l.headD 0 ∈ l := by
  cases l with
  | nil => contradiction
  | cons a r => exact List.mem_cons_self a r

theorem nodup_lt_length_le (n : Nat) (l : List Nat) (hnd : l.Nodup)
    (hlt : ∀ v ∈ l, v < n) : l.length ≤ n := by
  have hsp : List.Subperm l (List.range n) :=
    hnd.subperm (fun v hv => List.mem_range.mpr (hlt v hv))
  simpa using hsp.length_le

theorem nodup_lt_perm_range (n : Nat) (l : List Nat) (hnd : l.Nodup)
    (hlt : ∀ v ∈ l, v < n) (hlen : l.length = n) : l.Perm (List.range n) := by
  have hsp : List.Subperm l (List.range n) :=
    hnd.subperm (fun v hv => List.mem_range.mpr (hlt v hv))
  exact hsp.perm_of_length_le (by simpa using Nat.le_of_eq hlen.symm)

theorem filter_bne_eq (l : List Nat) (a : Nat) :
    l.filter (fun x => x != a) = l.filter (fun x => decide (x ≠ a)) :=
  List.filter_congr (fun x _ => by by_cases h : x = a <;> simp [h])

/-- Extending the path by one vertex shrinks the unvisited set by
filtering that vertex out. -/
theorem unvisited_extend (n : Nat) (path : List Nat) (v : Nat) :
    (List.range n).filter (fun u => decide (u ∉ path ++ [v]))
      = ((List.range n).filter (fun u => decide (u ∉ path))).filter
          (fun u => decide (u ≠ v)) := by
  rw [List.filter_filter]
  refine List.filter_congr ?_
  intro u _
  have hiff : (u ∉ path ++ [v]) ↔ (u ≠ v ∧ u ∉ path) := by
    constructor
    · intro h
      exact ⟨fun he => h (List.mem_append.mpr (Or.inr (List.mem_singleton.mpr he))),
        fun hp => h (List.mem_append.mpr (Or.inl hp))⟩
    · intro h hm
      rcases List.mem_append.mp hm with hp | hv2
      · exact h.2 hp
      · exact h.1 (List.mem_singleton.mp hv2)
  rw [decide_eq_decide.mpr hiff]
  exact Bool.decide_and _ _

/-- The invariant of the backtracking state: either no tour has been
recorded yet (cost `⊤`), or the recorded tour starts at `0`, visits every
vertex once and its stored cost is its cyclic cost. -/
def ExactInv (d : Nat → Nat → Nat) (n : Nat) (st : ExactState) : Prop :=
  st.best_cost = ⊤ ∨
  ∃ t : List Nat, st.best_tour = some t ∧
    st.best_cost = ((tour_length t d : Nat) : WithTop Nat) ∧
    t.headD 0 = 0 ∧ t.Perm (List.range n)

theorem exact_go_len_eq (d : Nat → Nat → Nat) (n fuel : Nat) (path : List Nat)
    (last ccost : Nat) (st : ExactState) (hlen : path.length = n) :
    exact_go d n fuel path last ccost st =
      if ((ccost + d last 0 : Nat) : WithTop Nat) < st.best_cost then
        ⟨some path, ((ccost + d last 0 : Nat) : WithTop Nat), st.generated + 1⟩
      else ⟨st.best_tour, st.best_cost, st.generated + 1⟩ := by
  cases fuel with
  | zero => rw [exact_go, if_pos hlen]
  | succ f => rw [exact_go, if_pos hlen]

theorem exact_go_prune_eq (d : Nat → Nat → Nat) (n fuel : Nat) (path : List Nat)
    (last ccost : Nat) (st : ExactState) (hlen : path.length ≠ n)
    (hpr : st.best_cost ≤ ((ccost + remaining_lb d n path : Nat) : WithTop Nat)) :
    exact_go d n fuel path last ccost st =
      ⟨st.best_tour, st.best_cost, st.generated + 1⟩ := by
  cases fuel with
  | zero => rw [exact_go, if_neg hlen, if_pos hpr]
  | succ f => rw [exact_go, if_neg hlen, if_pos hpr]

theorem exact_go_succ_eq (d : Nat → Nat → Nat) (n fuel2 : Nat) (path : List Nat)
    (last ccost : Nat) (st : ExactState) (hlen : path.length ≠ n)
    (hpr : ¬ st.best_cost ≤ ((ccost + remaining_lb d n path : Nat) : WithTop Nat)) :
    exact_go d n (fuel2 + 1) path last ccost st =
      (List.range' 1 (n - 1)).foldl (fun acc v =>
        if v ∈ path then acc
        else exact_go d n fuel2 (path ++ [v]) v (ccost + d last v) acc)
        ⟨st.best_tour, st.best_cost, st.generated + 1⟩ := by
  rw [exact_go, if_neg hlen, if_neg hpr]

/-- Behaviour of a call on a complete path (`len(current_path) == n`). -/
theorem exact_go_at_full (d : Nat → Nat → Nat) (n fuel : Nat)
    (path : List Nat) (last ccost : Nat) (st : ExactState)
    (hne : path ≠ []) (hnd : path.Nodup) (hlt : ∀ v ∈ path, v < n)
    (hhead : path.headD 0 = 0) (hlast : path.getLastD 0 = last)
    (hc : ccost = adjSum d path) (hinv : ExactInv d n st)
    (hlen : path.length = n) :
    ExactInv d n (exact_go d n fuel path last ccost st) ∧
    (exact_go d n fuel path last ccost st).best_cost ≤ st.best_cost ∧
    ∀ s : List Nat,
      s.Perm ((List.range n).filter (fun v => decide (v ∉ path))) →
      (exact_go d n fuel path last ccost st).best_cost
        ≤ ((ccost + closeCost d last s : Nat) : WithTop Nat) := by
  have hperm : path.Perm (List.range n) := nodup_lt_perm_range n path hnd hlt hlen
  have hU : (List.range n).filter (fun v => decide (v ∉ path)) = [] := by
    rw [List.filter_eq_nil_iff]
    intro v hv hdec
    exact (of_decide_eq_true hdec) (hperm.mem_iff.mpr hv)
  have htc : ccost + d last 0 = tour_length path d := by
    rw [tour_length_eq_adjSum path d hne, ← hc, hlast, hhead]
  rw [exact_go_len_eq d n fuel path last ccost st hlen]
  by_cases hlt2 : ((ccost + d last 0 : Nat) : WithTop Nat) < st.best_cost
  · rw [if_pos hlt2]
    refine ⟨Or.inr ⟨path, rfl, ?_, hhead, hperm⟩, ?_, ?_⟩
    · exact congrArg (fun x : Nat => (x : WithTop Nat)) htc
    · show ((ccost + d last 0 : Nat) : WithTop Nat) ≤ st.best_cost
      exact le_of_lt hlt2
    · intro s hs
      rw [hU] at hs
      have hs0 : s = [] := hs.eq_nil
      subst hs0
      exact le_refl _
  · rw [if_neg hlt2]
    refine ⟨hinv, le_refl _, ?_⟩
    intro s hs
    rw [hU] at hs
    have hs0 : s = [] := hs.eq_nil
    subst hs0
    exact le_of_not_lt hlt2

/-- The main branch-and-bound invariant: a call preserves the state
invariant, never worsens the recorded best cost, and leaves a best cost no
larger than the total cost of any completion of the current path through
the unvisited vertices in any order. -/
theorem exact_go_spec (d : Nat → Nat → Nat) (n : Nat) :
    ∀ (fuel : Nat) (path : List Nat) (last ccost : Nat) (st : ExactState),
    path ≠ [] → path.Nodup → (∀ v ∈ path, v < n) → path.headD 0 = 0 →
    path.getLastD 0 = last → n ≤ path.length + fuel →
    ccost = adjSum d path → ExactInv d n st →
    ExactInv d n (exact_go d n fuel path last ccost st) ∧
    (exact_go d n fuel path last ccost st).best_cost ≤ st.best_cost ∧
    ∀ s : List Nat,
      s.Perm ((List.range n).filter (fun v => decide (v ∉ path))) →
      (exact_go d n fuel path last ccost st).best_cost
        ≤ ((ccost + closeCost d last s : Nat) : WithTop Nat) := by
  intro fuel
  induction fuel with
  | zero =>
    intro path last ccost st hne hnd hlt hhead hlast hfuel hc hinv
    have hlen_le : path.length ≤ n := nodup_lt_length_le n path hnd hlt
    have hlen : path.length = n := by omega
    exact exact_go_at_full d n 0 path last ccost st hne hnd hlt hhead hlast hc hinv hlen
  | succ fuel2 ih =>
    intro path last ccost st hne hnd hlt hhead hlast hfuel hc hinv
    have h0mem : (0 : Nat) ∈ path := hhead ▸ headD_mem path hne
    have hn0 : 0 < n := hlt 0 h0mem
    have hlen_le : path.length ≤ n := nodup_lt_length_le n path hnd hlt
    by_cases hlen : path.length = n
    · exact exact_go_at_full d n (fuel2 + 1) path last ccost st hne hnd hlt hhead hlast hc hinv hlen
    · by_cases hpr : st.best_cost ≤ ((ccost + remaining_lb d n path : Nat) : WithTop Nat)
      · rw [exact_go_prune_eq d n (fuel2 + 1) path last ccost st hlen hpr]
        refine ⟨hinv, le_refl _, ?_⟩
        intro s hs
        refine le_trans hpr ?_
        have hsum : (s.map (min_out d n)).sum = remaining_lb d n path := by
          unfold remaining_lb
          exact (hs.map (min_out d n)).sum_eq
        have hnds : s.Nodup :=
          hs.nodup_iff.mpr ((List.nodup_range n).filter _)
        have hall : ∀ u ∈ s, u < n ∧ u ≠ 0 := by
          intro u hu
          have hu2 := List.mem_filter.mp (hs.subset hu)
          refine ⟨List.mem_range.mp hu2.1, ?_⟩
          intro h0
          exact (of_decide_eq_true hu2.2) (h0 ▸ h0mem)
        have hlb := closeCost_ge_lb d n s last hn0 hnds hall
        exact_mod_cast Nat.add_le_add_left (by omega) ccost
      · rw [exact_go_succ_eq d n fuel2 path last ccost st hlen hpr]
        have hfold : ∀ (cs : List Nat), (∀ v ∈ cs, 1 ≤ v ∧ v < n) →
            ∀ (st0 : ExactState), ExactInv d n st0 →
            ExactInv d n (cs.foldl (fun acc v =>
              if v ∈ path then acc
              else exact_go d n fuel2 (path ++ [v]) v (ccost + d last v) acc) st0) ∧
            (cs.foldl (fun acc v =>
              if v ∈ path then acc
              else exact_go d n fuel2 (path ++ [v]) v (ccost + d last v) acc) st0).best_cost
              ≤ st0.best_cost ∧
            ∀ u ∈ cs, u ∉ path →
              ∀ s2 : List Nat,
              s2.Perm ((List.range n).filter (fun w => decide (w ∉ path ++ [u]))) →
              (cs.foldl (fun acc v =>
                if v ∈ path then acc
                else exact_go d n fuel2 (path ++ [v]) v (ccost + d last v) acc) st0).best_cost
                ≤ ((ccost + d last u + closeCost d u s2 : Nat) : WithTop Nat) := by
          intro cs
          induction cs with
          | nil =>
            intro _ st0 hinv0
            exact ⟨hinv0, le_refl _, fun u hu => absurd hu (List.not_mem_nil u)⟩
          | cons v cs2 ihc =>
            intro hcs st0 hinv0
            have hv := hcs v (List.mem_cons_self v cs2)
            simp only [List.foldl_cons]
            by_cases hvp : v ∈ path
            · rw [if_pos hvp]
              have hrec := ihc (fun u hu => hcs u (List.mem_cons_of_mem v hu)) st0 hinv0
              refine ⟨hrec.1, hrec.2.1, ?_⟩
              intro u hu hup s2 hs2
              rcases List.mem_cons.mp hu with h | h
              · exact absurd (h ▸ hvp) hup
              · exact hrec.2.2 u h hup s2 hs2
            · rw [if_neg hvp]
              have hne2 : path ++ [v] ≠ [] := by simp
              have hnd2 : (path ++ [v]).Nodup := by
                rw [List.nodup_append]
                refine ⟨hnd, List.nodup_singleton v, ?_⟩
                intro a ha hav
                rw [List.mem_singleton] at hav
                exact hvp (hav ▸ ha)
              have hlt2 : ∀ u ∈ path ++ [v], u < n := by
                intro u hu
                rcases List.mem_append.mp hu with h | h
                · exact hlt u h
                · rw [List.mem_singleton] at h
                  omega
              have hhead2 : (path ++ [v]).headD 0 = 0 := by
                rw [headD_append path [v] hne]
                exact hhead
              have hlast2 : (path ++ [v]).getLastD 0 = v :=
                lastD_append path [v] (by simp)
              have hfuel2 : n ≤ (path ++ [v]).length + fuel2 := by
                rw [List.length_append]
                simp only [List.length_singleton]
                omega
              have hc2 : ccost + d last v = adjSum d (path ++ [v]) := by
                rw [adjSum_append d [v] path hne (by simp), ← hc, hlast]
                have e1 : adjSum d [v] = 0 := rfl
                have e2 : ([v] : List Nat).headD 0 = v := rfl
                rw [e1, e2]
                omega
              have hext := ih (path ++ [v]) v (ccost + d last v) st0
                hne2 hnd2 hlt2 hhead2 hlast2 hfuel2 hc2 hinv0
              have hrec := ihc (fun u hu => hcs u (List.mem_cons_of_mem v hu))
                (exact_go d n fuel2 (path ++ [v]) v (ccost + d last v) st0) hext.1
              refine ⟨hrec.1, le_trans hrec.2.1 hext.2.1, ?_⟩
              intro u hu hup s2 hs2
              rcases List.mem_cons.mp hu with h | h
              · subst h
                exact le_trans hrec.2.1 (hext.2.2 s2 hs2)
              · exact hrec.2.2 u h hup s2 hs2
        have hmem_cands : ∀ v ∈ List.range' 1 (n - 1), 1 ≤ v ∧ v < n := by
          intro v hv
          rw [List.mem_range'_1] at hv
          omega
        have hst1 : ExactInv d n
            (⟨st.best_tour, st.best_cost, st.generated + 1⟩ : ExactState) := hinv
        have hF := hfold (List.range' 1 (n - 1)) hmem_cands
          ⟨st.best_tour, st.best_cost, st.generated + 1⟩ hst1
        refine ⟨hF.1, hF.2.1, ?_⟩
        intro s hs
        have hUne : ((List.range n).filter (fun u => decide (u ∉ path))) ≠ [] := by
          intro hUnil
          have hsubset : ∀ v ∈ List.range n, v ∈ path := by
            intro v hv
            by_contra hvp
            have hmem : v ∈ (List.range n).filter (fun u => decide (u ∉ path)) :=
              List.mem_filter.mpr ⟨hv, decide_eq_true hvp⟩
            rw [hUnil] at hmem
            exact absurd hmem (List.not_mem_nil v)
          have hge : n ≤ path.length := by
            have hsp : List.Subperm (List.range n) path :=
              (List.nodup_range n).subperm hsubset
            simpa using hsp.length_le
          omega
        cases s with
        | nil => exact absurd hs.symm.eq_nil hUne
        | cons v s2 =>
          have hvU : v ∈ (List.range n).filter (fun u => decide (u ∉ path)) :=
            hs.subset (List.mem_cons_self v s2)
          have hvmem := List.mem_filter.mp hvU
          have hvn : v < n := List.mem_range.mp hvmem.1
          have hvp : v ∉ path := of_decide_eq_true hvmem.2
          have hv0 : v ≠ 0 := fun h => hvp (h ▸ h0mem)
          have hvcand : v ∈ List.range' 1 (n - 1) := by
            rw [List.mem_range'_1]
            omega
          have hUnd : ((List.range n).filter (fun u => decide (u ∉ path))).Nodup :=
            (List.nodup_range n).filter _
          have hs2 : s2.Perm
              ((List.range n).filter (fun u => decide (u ∉ path ++ [v]))) := by
            rw [unvisited_extend]
            have he : ((List.range n).filter (fun u => decide (u ∉ path))).filter
                  (fun u => decide (u ≠ v))
                = ((List.range n).filter (fun u => decide (u ∉ path))).erase v := by
              rw [hUnd.erase_eq_filter v, filter_bne_eq]
            rw [he]
            exact (hs.trans (List.perm_cons_erase hvU)).cons_inv
          have hccnat : ccost + closeCost d last (v :: s2)
              = ccost + d last v + closeCost d v s2 := by
            show ccost + (d last v + closeCost d v s2)
              = ccost + d last v + closeCost d v s2
            omega
          rw [hccnat]
          exact hF.2.2 v hvcand hvp s2 hs2

/-- **C1.** For every cost table and every `n ≥ 2`, the exact solver
records a best tour that starts at vertex `0` and is a permutation of
`[0, n)`, its stored best cost equals that tour's cyclic cost, and that
cost is minimal over all permutations of `[0, n)` fixing vertex `0`: the
branch-and-bound pruning with per-vertex minimum outgoing edges never
discards a strictly better solution. -/
theorem exact_solver_optimal (d : Nat → Nat → Nat) (n : Nat) (hn : 2 ≤ n) :
    ∃ t : List Nat,
      (exact_tsp_backtracking d n).best_tour = some t ∧
      t.headD 0 = 0 ∧ t.Perm (List.range n) ∧
      (exact_tsp_backtracking d n).best_cost
        = ((tour_length t d : Nat) : WithTop Nat) ∧
      ∀ s : List Nat, s.headD 0 = 0 → s.Perm (List.range n) →
        tour_length t d ≤ tour_length s d := by
  have hspec := exact_go_spec d n (n - 1) [0] 0 0 ⟨none, ⊤, 0⟩
    (by simp) (List.nodup_singleton 0)
    (by intro v hv; rw [List.mem_singleton] at hv; omega)
    rfl rfl (by show n ≤ 1 + (n - 1); omega) rfl (Or.inl rfl)
  obtain ⟨hinvf, _, hbound⟩ := hspec
  have hboundU := hbound
    ((List.range n).filter (fun v => decide (v ∉ ([0] : List Nat))))
    (List.Perm.refl _)
  rcases hinvf with htop | ⟨t, hbt, hbc, hth, htp⟩
  · exfalso
    rw [htop] at hboundU
    exact (WithTop.not_top_le_coe _) hboundU
  · refine ⟨t, hbt, hth, htp, hbc, ?_⟩
    intro s hsh hsp
    cases s with
    | nil =>
      exfalso
      have hl := hsp.length_eq
      simp at hl
      omega
    | cons a s2 =>
      have ha : a = 0 := hsh
      subst ha
      have htail : s2.Perm ((List.range n).erase 0) := by
        have h0r : (0 : Nat) ∈ List.range n := List.mem_range.mpr (by omega)
        exact (hsp.trans (List.perm_cons_erase h0r)).cons_inv
      have hU0e : (List.range n).erase 0
          = (List.range n).filter (fun v => decide (v ∉ ([0] : List Nat))) := by
        rw [(List.nodup_range n).erase_eq_filter 0, filter_bne_eq]
        refine List.filter_congr ?_
        intro u _
        exact decide_eq_decide.mpr (by simp)
      have hs2U : s2.Perm
          ((List.range n).filter (fun v => decide (v ∉ ([0] : List Nat)))) :=
        hU0e ▸ htail
      have hfin := hbound s2 hs2U
      rw [hbc] at hfin
      have hclose : (0 : Nat) + closeCost d 0 s2 = tour_length (0 :: s2) d := by
        rw [closeCost_eq_tour_length]
        omega
      rw [hclose] at hfin
      exact_mod_cast hfin

/-- Closed witness: the hypothesis `2 ≤ n` is satisfiable, at `n = 2` with
the sum table. -/
theorem exact_solver_optimal_witness :
    2 ≤ 2 ∧ ∃ t : List Nat,
      (exact_tsp_backtracking dsum 2).best_tour = some t ∧
      t.headD 0 = 0 ∧ t.Perm (List.range 2) ∧
      (exact_tsp_backtracking dsum 2).best_cost
        = ((tour_length t dsum : Nat) : WithTop Nat) ∧
      ∀ s : List Nat, s.headD 0 = 0 → s.Perm (List.range 2) →
        tour_length t dsum ≤ tour_length s dsum :=
  ⟨by decide, exact_solver_optimal dsum 2 (by decide)⟩

end TspGaMa
